import Mathlib

/-!
# bottleneck: the `Calculator` of `calculator.go`

A shallow embedding of `Calculator.TimeSlice` and `Calculator.Stats`.

* `uint64` values are naturals below `2^64`; every operation that can leave that range in Go
  is reduced modulo `2^64` here (`toUint64`, `subUint64`, `shlUint64`).
* `int64` values (`time.Duration`, `CallCount`) are integers in `[-2^63, 2^63)`; the additions
  made by `atomic.AddInt64` and `+=` wrap (`addInt64`).
* The clock reading `time.Now().UnixNano()` is an argument `now` of each operation.
* An index expression `c.entries[i]` out of range panics in Go: `none` here.
* `float64` quotients are kept as exact rationals, with the IEEE results of a division by
  zero (`NaN`, `±Inf`) as separate values (`F64`).
-/

namespace Bottleneck

/-! ## Machine integers -/

/-- Go conversion `uint64(x)` of a signed integer: the residue modulo `2^64`. -/
def toUint64 (x : Int) : Nat := (x % 2 ^ 64).toNat

/-- Go conversion `int64(x)` of an unsigned 64-bit integer: its two's complement reading. -/
def toInt64 (x : Nat) : Int :=
  if x % 2 ^ 64 < 2 ^ 63 then ((x % 2 ^ 64 : Nat) : Int) else ((x % 2 ^ 64 : Nat) : Int) - 2 ^ 64

/-- Wrapping `int64` addition, as done by `atomic.AddInt64` and by `+=` on `time.Duration`. -/
def addInt64 (a b : Int) : Int := toInt64 (toUint64 (a + b))

/-- Wrapping `uint64` subtraction `a - b`. -/
def subUint64 (a b : Nat) : Nat := toUint64 ((a : Int) - (b : Int))

/-- The `uint64` shift `x << k`: bits shifted past position 63 are dropped. -/
def shlUint64 (x k : Nat) : Nat := (x <<< k) % 2 ^ 64

/-- The `uint64` bit clear `x &^ m`, that is `x & (^m)` with a 64-bit complement. -/
def andNotUint64 (x m : Nat) : Nat := x &&& ((2 ^ 64 - 1) ^^^ m)

/-- Predicate: `x` is a value of type `int64`. -/
def IsInt64 (x : Int) : Prop := -(2 ^ 63) ≤ x ∧ x < 2 ^ 63

instance (x : Int) : Decidable (IsInt64 x) := by unfold IsInt64; infer_instance

/-! ## Idealised `float64` -/

/-- A `float64` result, idealised: finite values are exact rationals; the two kinds of result
of a division by zero are kept apart. -/
inductive F64 where
  | nan : F64
  | inf (negative : Bool) : F64
  | fin (q : ℚ) : F64
  deriving DecidableEq

/-- The quotient `float64(a) / float64(b)` of two `int64` values. -/
def F64.divInt (a b : Int) : F64 :=
  if b = 0 then
    if a = 0 then F64.nan else F64.inf (decide (a < 0))
  else F64.fin ((a : ℚ) / (b : ℚ))

/-- The rational value of a finite `float64`, `none` for `NaN` and `±Inf`. -/
def F64.toRat? : F64 → Option ℚ
  | F64.fin q => some q
  | _ => none

/-! ## Data model -/

/-- Go `Entry`: `Duration time.Duration`, `CallCount int64`, `Percentage float64`,
`timestamp time.Duration`. -/
structure Entry where
  Duration : Int
  CallCount : Int
  Percentage : F64
  timestamp : Int
  deriving DecidableEq

/-- The zero value of `Entry`. -/
def Entry.zero : Entry := { Duration := 0, CallCount := 0, Percentage := F64.fin 0, timestamp := 0 }

/-- Go constant `IndexCount`. -/
def IndexCount : Int := 8

/-- Go `Calculator`: `entries []Entry`, `last uint64`. -/
structure Calculator where
  entries : List Entry
  last : Nat
  deriving DecidableEq

/-- Go `NewCalculator`: `&Calculator{make([]Entry, int(IndexCount)), 0}`. -/
def NewCalculator : Calculator :=
  { entries := List.replicate IndexCount.toNat Entry.zero, last := 0 }

/-! ## Atomic primitives on the entries -/

/-- Models `atomic.AddInt64((*int64)(&entries[i].Duration), d)`; `none` when `i` is out of
range. -/
def addDuration (es : List Entry) (i : Nat) (d : Int) : Option (List Entry) :=
  match es[i]? with
  | none => none
  | some e => some (es.set i { e with Duration := addInt64 e.Duration d })

/-- Models `atomic.AddInt64(&entries[i].CallCount, d)`; `none` when `i` is out of range. -/
def addCallCount (es : List Entry) (i : Nat) (d : Int) : Option (List Entry) :=
  match es[i]? with
  | none => none
  | some e => some (es.set i { e with CallCount := addInt64 e.CallCount d })

/-! ## The operations, run without interference -/

/-- The state word written by `TimeSlice`: `n|uint64(index)<<61`. -/
def packIndex (n : Nat) (index : Int) : Nat := n ||| shlUint64 (toUint64 index) 61

/-- The bucket held by a state word: `last >> 61`. -/
def decodeIndex (last : Nat) : Nat := last >>> 61

/-- The timestamp held by a state word: `last &^ (7 << 61)`. -/
def decodeTimestamp (last : Nat) : Nat := andNotUint64 last (7 <<< 61)

/-- Go `Calculator.TimeSlice`, with `now` the value of `time.Now().UnixNano()`. -/
def TimeSlice (c : Calculator) (index : Int) (now : Int) : Option Calculator :=
  let n := toUint64 now
  let last := c.last
  let c1 : Calculator := { c with last := packIndex n index }
  if last ≠ 0 then
    let lastIndex := decodeIndex last
    let last := decodeTimestamp last
    match addDuration c1.entries lastIndex (toInt64 (subUint64 n last)) with
    | none => none
    | some es1 =>
      match addCallCount es1 lastIndex 1 with
      | none => none
      | some es2 => some { c1 with entries := es2 }
  else some c1

/-- The first loop of `Calculator.Stats`, run with no concurrent writer: the word loaded is
still in place at the compare-and-swap, which therefore succeeds in the first iteration. -/
def closeOut (c : Calculator) (n : Nat) : Option Calculator :=
  let last := c.last
  if last = 0 then some c
  else
    let index := decodeIndex last
    let c1 : Calculator := { c with last := n ||| shlUint64 index 61 }
    match addDuration c1.entries index (toInt64 (subUint64 n (decodeTimestamp last))) with
    | none => none
    | some es1 => some { c1 with entries := es1 }

/-- The variable `total` of `Calculator.Stats` after the first result loop, `result` holding
the loaded entries: `total += result[i].Duration` for every `i`. -/
def totalOf (result : List Entry) : Int := result.foldl (fun t r => addInt64 t r.Duration) 0

/-- The second part of `Calculator.Stats`: the two loops that build `result`. -/
def snapshot (es : List Entry) : List Entry :=
  let result : List Entry :=
    es.map fun e => { Entry.zero with Duration := e.Duration, CallCount := e.CallCount }
  let total : Int := totalOf result
  result.map fun r => { r with Percentage := F64.divInt r.Duration total }

/-- Go `Calculator.Stats`, with `now` the value of `time.Now().UnixNano()`: the returned slice
and the calculator after the call. -/
def Stats (c : Calculator) (now : Int) : Option (List Entry × Calculator) :=
  let n := toUint64 now
  match closeOut c n with
  | none => none
  | some c1 => some (snapshot c1.entries, c1)

/-! ## Sequential call sequences -/

/-- One call on a calculator, with the clock reading it takes. -/
inductive Call where
  | timeSlice (index : Int) (now : Int) : Call
  | stats (now : Int) : Call
  deriving DecidableEq

/-- The clock reading taken by a call. -/
def Call.clock : Call → Int
  | Call.timeSlice _ now => now
  | Call.stats now => now

/-- The index argument of a call lies in `[Index0, IndexCount)` (vacuous for `Stats`). -/
def Call.IndexOk : Call → Prop
  | Call.timeSlice index _ => 0 ≤ index ∧ index < IndexCount
  | Call.stats _ => True

instance (x : Call) : Decidable x.IndexOk := by
  cases x <;> unfold Call.IndexOk <;> infer_instance

/-- Predicate: a call is a `TimeSlice` call. -/
def Call.isTimeSlice : Call → Bool
  | Call.timeSlice _ _ => true
  | Call.stats _ => false

/-- The calculator after one call (the slice returned by `Stats` is dropped). -/
def step (c : Calculator) : Call → Option Calculator
  | Call.timeSlice index now => TimeSlice c index now
  | Call.stats now => (Stats c now).map Prod.snd

/-- The calculator after a sequence of calls made one after the other. -/
def run (c : Calculator) : List Call → Option Calculator
  | [] => some c
  | x :: rest => (step c x).bind fun c1 => run c1 rest

/-- A sequence of calls with indices in `[0, 8)` and non-decreasing clock readings in
`(0, 2^61)`. -/
def ValidCalls (calls : List Call) : Prop :=
  (∀ x ∈ calls, x.IndexOk ∧ 0 < x.clock ∧ x.clock < 2 ^ 61) ∧
    List.Pairwise (fun a b => a ≤ b) (calls.map Call.clock)

instance (calls : List Call) : Decidable (ValidCalls calls) := by
  unfold ValidCalls; infer_instance

/-- The clock reading of the first `TimeSlice` call of a sequence, if there is one. -/
def firstTimeSlice : List Call → Option Int
  | [] => none
  | Call.timeSlice _ now :: _ => some now
  | Call.stats _ :: rest => firstTimeSlice rest

/-- The most recent call made at or after the first `TimeSlice` call, if there is one: the
last call of the sequence that starts at the first `TimeSlice`. -/
def lastSinceFirstTimeSlice (calls : List Call) : Option Call :=
  (calls.dropWhile fun x => !x.isTimeSlice).getLast?

/-- The number of `TimeSlice` calls in a sequence. -/
def countTimeSlice (calls : List Call) : Nat := calls.countP Call.isTimeSlice

/-! ## Observations on a calculator -/

/-- The stored `Duration` of bucket `j`. -/
def durationAt (es : List Entry) (j : Nat) : Int := (es.getD j Entry.zero).Duration

/-- The stored `CallCount` of bucket `j`. -/
def callCountAt (es : List Entry) (j : Nat) : Int := (es.getD j Entry.zero).CallCount

/-- The exact (unbounded) sum of the `Duration` fields. -/
def sumDuration (es : List Entry) : Int := (es.map Entry.Duration).sum

/-- A calculator as the Go types allow it after `NewCalculator`: eight entries, `int64`
fields, a `uint64` state word. -/
def WellFormed (c : Calculator) : Prop :=
  c.entries.length = 8 ∧ c.last < 2 ^ 64 ∧
    ∀ e ∈ c.entries, IsInt64 e.Duration ∧ IsInt64 e.CallCount

instance (c : Calculator) : Decidable (WellFormed c) := by
  unfold WellFormed; infer_instance

/-- The sum of the returned `Percentage` values, when all of them are finite. -/
def percentageSum : List Entry → Option ℚ
  | [] => some 0
  | e :: rest =>
    match e.Percentage.toRat?, percentageSum rest with
    | some q, some s => some (q + s)
    | _, _ => none

/-! ## Call sequences of the form `TimeSlice(b 0), ..., TimeSlice(b k)` -/

/-- The calls `TimeSlice(b 0), ..., TimeSlice(b k)`, call `i` reading the clock at `t i`. -/
def timeSliceCalls (b t : Nat → Int) (k : Nat) : List Call :=
  (List.range (k + 1)).map fun i => Call.timeSlice (b i) (t i)

/-- The number of `i < k` with `b i = j`: the completed intervals whose source is bucket `j`. -/
def sourceCount (b : Nat → Int) (k : Nat) (j : Nat) : Nat :=
  ((List.range k).filter fun i => b i = (j : Int)).length

/-- The sum of `t (i + 1) - t i` over the `i < k` with `b i = j`. -/
def sourceDuration (b t : Nat → Int) (k : Nat) (j : Nat) : Int :=
  ((List.range k).map fun i => if b i = (j : Int) then t (i + 1) - t i else 0).sum

/-- What holds of the calculator `c` reached by the call sequence `calls` when the clock
readings are non-decreasing in `(0, 2^61)`: the call counts are bounded by the number of
`TimeSlice` calls (up to the `int64` wrap-around); before the first `TimeSlice` nothing has
changed; after it the state word holds the clock reading of the last call and the durations
add up to the time elapsed since the first `TimeSlice`. -/
def Invariant (calls : List Call) (c : Calculator) : Prop :=
  c.entries.length = 8 ∧ c.last < 2 ^ 64 ∧
    (∀ j, ∃ n : Nat, callCountAt c.entries j = toInt64 n ∧ n ≤ countTimeSlice calls - 1) ∧
    (firstTimeSlice calls = none → c = NewCalculator) ∧
    (∀ t0, firstTimeSlice calls = some t0 →
      0 < t0 ∧ c.last ≠ 0 ∧
        ∃ x, calls.getLast? = some x ∧ ((c.last % 2 ^ 61 : Nat) : Int) = x.clock ∧
          sumDuration c.entries = x.clock - t0 ∧
          ∀ j, 0 ≤ durationAt c.entries j ∧ durationAt c.entries j ≤ x.clock - t0)

/-- The clock readings and bucket arguments of the scenario of `TestCalculator`:
`TimeSlice(0)`, `TimeSlice(1)`, `TimeSlice(0)`, 100 ms apart. -/
def testBuckets (i : Nat) : Int := if i = 1 then 1 else 0

/-- The clock reading of call `i` of the scenario of `TestCalculator`, in nanoseconds. -/
def testClock (i : Nat) : Int := 100000000 * ((i : Int) + 1)

/-! ## Concrete calculators and call sequences -/

/-- An entry with the given stored `Duration` and `CallCount`. -/
def Entry.of (d k : Int) : Entry := { Entry.zero with Duration := d, CallCount := k }

/-- A calculator in the middle of a run: buckets 0 and 1 have one completed interval of
100 ns each, and bucket 1 has been active since clock reading 300. -/
def sampleCalculator : Calculator :=
  { entries := [Entry.of 100 1, Entry.of 100 1, Entry.zero, Entry.zero, Entry.zero, Entry.zero,
      Entry.zero, Entry.zero],
    last := 300 + 2 ^ 61 }

/-- A short run that mixes the two operations. -/
def sampleCalls : List Call :=
  [Call.stats 50, Call.timeSlice 0 100, Call.timeSlice 1 200, Call.stats 300,
    Call.timeSlice 0 400]

/-- A run whose clock readings are positive `int64` values, non-decreasing, but not below
`2^61`: five `TimeSlice` calls, the last four at clock reading `2^62`. -/
def overflowCalls : List Call :=
  [Call.timeSlice 0 1, Call.timeSlice 0 (2 ^ 62), Call.timeSlice 1 (2 ^ 62),
    Call.timeSlice 4 (2 ^ 62), Call.timeSlice 5 (2 ^ 62)]

/-- The calculator reached by `overflowCalls`. -/
def overflowCalculator : Calculator :=
  { entries := [Entry.of (2 ^ 62 - 1) 1, Entry.zero, Entry.of (2 ^ 62) 1, Entry.of (2 ^ 62) 1,
      Entry.zero, Entry.zero, Entry.of (2 ^ 62) 1, Entry.zero],
    last := 7 * 2 ^ 61 }

/-- The calculator `overflowCalculator` after a `Stats` call at clock reading `2^62`. -/
def overflowAfterStats : Calculator :=
  { entries := [Entry.of (2 ^ 62 - 1) 1, Entry.zero, Entry.of (2 ^ 62) 1, Entry.of (2 ^ 62) 1,
      Entry.zero, Entry.zero, Entry.of (2 ^ 62) 1, Entry.of (2 ^ 62) 0],
    last := 7 * 2 ^ 61 }

/-- A run with a clock that jumps to the largest `int64` value and back. -/
def saturatingCalls : List Call :=
  [Call.timeSlice 0 1, Call.timeSlice 0 (2 ^ 63 - 1), Call.timeSlice 0 1]

/-- The calculator reached by `saturatingCalls`: bucket 0 is active since clock reading 1 and
its stored `Duration` is one below the largest `int64` value. -/
def saturatedCalculator : Calculator :=
  { entries := [Entry.of (2 ^ 63 - 2) 1, Entry.zero, Entry.zero, Entry.of (2 - 2 ^ 61) 1,
      Entry.zero, Entry.zero, Entry.zero, Entry.zero],
    last := 1 }

/-- The calculator `saturatedCalculator` after a `Stats` call at clock reading 3: the
addition of 2 to the stored `Duration` of bucket 0 has wrapped around. -/
def saturatedAfterStats : Calculator :=
  { entries := [Entry.of (-(2 ^ 63)) 1, Entry.zero, Entry.zero, Entry.of (2 - 2 ^ 61) 1,
      Entry.zero, Entry.zero, Entry.zero, Entry.zero],
    last := 3 }

/-! ## Further observations and conditions on call sequences -/

/-- The `Percentage` of record `j` of a returned slice. -/
def percentageAt (r : List Entry) (j : Nat) : F64 := (r.getD j Entry.zero).Percentage

/-- The Go expression `n-last&^(7<<61)` of `Stats`, before its conversion to `int64`: `&^` has
the precedence of `*`, above that of `-`, so the mask applies to `last` alone. -/
def statsElapsed (n last : Nat) : Nat := subUint64 n (andNotUint64 last (7 <<< 61))

/-- A sequence of calls with indices in `[0, 8)` and clock readings in `(0, 2^61)`, in any
order. -/
def RangeCalls (calls : List Call) : Prop :=
  ∀ x ∈ calls, x.IndexOk ∧ 0 < x.clock ∧ x.clock < 2 ^ 61

instance (calls : List Call) : Decidable (RangeCalls calls) := by
  unfold RangeCalls; infer_instance

/-- What holds of the calculator `c` reached by the call sequence `calls` when the clock
readings lie in `(0, 2^61)`: eight entries, a `uint64` state word, `int64` call counts, and a
state word that is 0 exactly when the sequence has no `TimeSlice` call. -/
def WordInvariant (calls : List Call) (c : Calculator) : Prop :=
  c.entries.length = 8 ∧ c.last < 2 ^ 64 ∧
    (∀ j, IsInt64 (callCountAt c.entries j)) ∧
    (c.last = 0 ↔ countTimeSlice calls = 0)

/-- One century in nanoseconds. -/
def centuryNanoseconds : Nat := 100 * 365 * 24 * 3600 * 10 ^ 9

/-- Seventy-three years in nanoseconds. -/
def seventyThreeYearsNanoseconds : Nat := 73 * 365 * 24 * 3600 * 10 ^ 9

/-! ## Interleaved execution: one atomic step at a time -/

/-- Where a goroutine running `TimeSlice(index)` stands, with the locals it holds. -/
inductive TimeSlicePc where
  | swap (n : Nat) : TimeSlicePc
  | addDuration (n last : Nat) : TimeSlicePc
  | addCallCount (lastIndex : Nat) : TimeSlicePc
  deriving DecidableEq

/-- The single goroutine that calls `TimeSlice`: the call in progress (its argument and its
position) and the arguments of the calls it still has to make. -/
structure Writer where
  current : Option (Int × TimeSlicePc)
  pending : List Int
  deriving DecidableEq

/-- Where a goroutine running `Stats` stands, with the locals it holds. -/
inductive StatsPc where
  | readClock : StatsPc
  | load (n : Nat) : StatsPc
  | cas (n last : Nat) : StatsPc
  | addDuration (n last index : Nat) : StatsPc
  | loadDuration (result : List Entry) : StatsPc
  | loadCallCount (result : List Entry) (d : Int) : StatsPc
  | returned (result : List Entry) : StatsPc
  deriving DecidableEq

/-- The shared calculator, the writer goroutine and the goroutines that each run one `Stats`
call. -/
structure Config where
  shared : Calculator
  writer : Writer
  readers : List StatsPc
  deriving DecidableEq

/-- One atomic step of the writer at wall-clock time `now`: the clock read that opens the next
call, the swap, or one of the two additions. -/
def Writer.step (w : Writer) (c : Calculator) (now : Int) : Option (Writer × Calculator) :=
  match w.current with
  | none =>
    match w.pending with
    | [] => none
    | index :: rest =>
      some ({ current := some (index, TimeSlicePc.swap (toUint64 now)), pending := rest }, c)
  | some (index, TimeSlicePc.swap n) =>
    let last := c.last
    let c1 : Calculator := { c with last := packIndex n index }
    if last ≠ 0 then
      some ({ w with current := some (index, TimeSlicePc.addDuration n last) }, c1)
    else some ({ w with current := none }, c1)
  | some (index, TimeSlicePc.addDuration n last) =>
    let lastIndex := decodeIndex last
    let last := decodeTimestamp last
    match Bottleneck.addDuration c.entries lastIndex (toInt64 (subUint64 n last)) with
    | none => none
    | some es1 =>
      some ({ w with current := some (index, TimeSlicePc.addCallCount lastIndex) },
        { c with entries := es1 })
  | some (_, TimeSlicePc.addCallCount lastIndex) =>
    match addCallCount c.entries lastIndex 1 with
    | none => none
    | some es2 => some ({ w with current := none }, { c with entries := es2 })

/-- The position of a `Stats` goroutine that has filled `result` so far: the next load, or
the second result loop and the return once `result` has `len(c.entries)` records. -/
def StatsPc.afterRecord (c : Calculator) (result : List Entry) : StatsPc :=
  if result.length < c.entries.length then StatsPc.loadDuration result
  else
    StatsPc.returned
      (result.map fun r => { r with Percentage := F64.divInt r.Duration (totalOf result) })

/-- One atomic step of a `Stats` goroutine at wall-clock time `now`. -/
def StatsPc.step (pc : StatsPc) (c : Calculator) (now : Int) : Option (StatsPc × Calculator) :=
  match pc with
  | StatsPc.readClock => some (StatsPc.load (toUint64 now), c)
  | StatsPc.load n =>
    let last := c.last
    if last = 0 then some (StatsPc.afterRecord c [], c)
    else some (StatsPc.cas n last, c)
  | StatsPc.cas n last =>
    let index := decodeIndex last
    if c.last = last then
      some (StatsPc.addDuration n last index, { c with last := n ||| shlUint64 index 61 })
    else some (StatsPc.load n, c)
  | StatsPc.addDuration n last index =>
    match Bottleneck.addDuration c.entries index
        (toInt64 (subUint64 n (decodeTimestamp last))) with
    | none => none
    | some es1 =>
      let c1 : Calculator := { c with entries := es1 }
      some (StatsPc.afterRecord c1 [], c1)
  | StatsPc.loadDuration result =>
    match c.entries[result.length]? with
    | none => none
    | some e => some (StatsPc.loadCallCount result e.Duration, c)
  | StatsPc.loadCallCount result d =>
    match c.entries[result.length]? with
    | none => none
    | some e =>
      some (StatsPc.afterRecord c
        (result ++ [{ Entry.zero with Duration := d, CallCount := e.CallCount }]), c)
  | StatsPc.returned _ => none

/-- One atomic step of goroutine `tid` at wall-clock time `now`: `0` is the writer, `k + 1`
is the `k`-th `Stats` goroutine. -/
def Config.step (cfg : Config) (tid : Nat) (now : Int) : Option Config :=
  match tid with
  | 0 =>
    match cfg.writer.step cfg.shared now with
    | none => none
    | some (w, c) => some { cfg with shared := c, writer := w }
  | k + 1 =>
    match cfg.readers[k]? with
    | none => none
    | some pc =>
      match pc.step cfg.shared now with
      | none => none
      | some (pc1, c) => some { cfg with shared := c, readers := cfg.readers.set k pc1 }

/-- An interleaving: the goroutine that takes each step and the wall-clock time of the step. -/
def Config.exec (cfg : Config) : List (Nat × Int) → Option Config
  | [] => some cfg
  | (tid, now) :: rest => (cfg.step tid now).bind fun cfg1 => cfg1.exec rest

/-- A fresh calculator, a writer that will call `TimeSlice` with the given arguments in
order, and `readers` goroutines that will each call `Stats`. -/
def Config.init (indices : List Int) (readers : Nat) : Config :=
  { shared := NewCalculator,
    writer := { current := none, pending := indices },
    readers := List.replicate readers StatsPc.readClock }

/-- The records a `Stats` goroutine has filled so far (those it returns, once it has
returned). -/
def StatsPc.records : StatsPc → List Entry
  | StatsPc.loadDuration result => result
  | StatsPc.loadCallCount result _ => result
  | StatsPc.returned result => result
  | _ => []

/-- The locals `(n, last)` of goroutine `tid` when its next step is its addition to a
`Duration`: its clock reading and the state word it replaced. -/
def Config.addingDuration (cfg : Config) (tid : Nat) : Option (Nat × Nat) :=
  match tid with
  | 0 =>
    match cfg.writer.current with
    | some (_, TimeSlicePc.addDuration n last) => some (n, last)
    | _ => none
  | k + 1 =>
    match cfg.readers[k]? with
    | some (StatsPc.addDuration n last _) => some (n, last)
    | _ => none

/-- The number of `TimeSlice` calls the writer has not completed: the call in progress, if
there is one, and the calls still to make. -/
def Writer.remaining (w : Writer) : Nat :=
  match w.current with
  | none => w.pending.length
  | some _ => w.pending.length + 1

/-- What holds of a configuration reached from `Config.init` with `total` calls of
`TimeSlice` to make: the calculator has eight entries; every stored call count is at least 0
and below the number of completed `TimeSlice` calls (0 when there is none); until the first
`TimeSlice` call has swapped the state word, that word is 0; a `Stats` goroutine about to
compare-and-swap holds a non-zero word, has recorded no call count above the stored one, and
has filled eight records once it has returned. -/
def Config.Counted (cfg : Config) (total : Nat) : Prop :=
  cfg.shared.entries.length = 8 ∧
    cfg.writer.remaining ≤ total ∧
    (∀ j, 0 ≤ callCountAt cfg.shared.entries j ∧
      callCountAt cfg.shared.entries j ≤ ((total - cfg.writer.remaining - 1 : Nat) : Int)) ∧
    (total - cfg.writer.remaining = 0 →
      cfg.shared.last = 0 ∧
        (cfg.writer.current = none ∨ ∃ i n, cfg.writer.current = some (i, TimeSlicePc.swap n))) ∧
    ∀ (k : Nat) (pc : StatsPc), cfg.readers[k]? = some pc →
      (∀ n last, pc = StatsPc.cas n last → last ≠ 0) ∧
      (∀ i, callCountAt pc.records i ≤ callCountAt cfg.shared.entries i) ∧
        ∀ r, pc = StatsPc.returned r → 8 ≤ r.length

/-- What holds of a configuration `cfg` reached from `start`, where goroutine `b` had not
begun its `Stats` call: no stored call count is below the one stored at `start`, nor is any
call count recorded by `b`. -/
def Config.Since (start cfg : Config) (b : Nat) : Prop :=
  (∀ i, callCountAt start.shared.entries i ≤ callCountAt cfg.shared.entries i) ∧
    ∀ pc, cfg.readers[b]? = some pc →
      ∀ i, i < pc.records.length →
        callCountAt start.shared.entries i ≤ callCountAt pc.records i

/-- The interleaving in which a `Stats` call uses a clock reading taken before a `TimeSlice`
call replaced the state word. Goroutine 1 runs a whole `Stats` call at time 5. -/
def staleFirstStats : List (Nat × Int) := List.replicate 18 (1, 5)

/-- Goroutine 2 starts `Stats` and reads the clock at 20; the writer runs `TimeSlice(Index1)`
at 30 (clock read, swap); goroutine 2 then loads the state word and replaces it by
compare-and-swap. -/
def staleRace : List (Nat × Int) := [(2, 20), (0, 30), (0, 30), (2, 31), (2, 31)]

/-- Goroutine 2 makes its sixteen loads and returns. -/
def staleLoads : List (Nat × Int) := List.replicate 16 (2, 32)

/-- The `Duration` of bucket `j` in the slice a `Stats` goroutine has returned. -/
def StatsPc.returnedDuration (pc : StatsPc) (j : Nat) : Option Int :=
  match pc with
  | StatsPc.returned result => some (durationAt result j)
  | _ => none

/-- The `CallCount` of bucket `j` in the slice a `Stats` goroutine has returned. -/
def StatsPc.returnedCallCount (pc : StatsPc) (j : Nat) : Option Int :=
  match pc with
  | StatsPc.returned result => some (callCountAt result j)
  | _ => none

/-- An interleaving with intervals to credit: the writer runs `TimeSlice(Index1)` at time 10
and `TimeSlice(Index0)` at time 20, then goroutine 1 runs a whole `Stats` call at time 30. -/
def busyFirst : List (Nat × Int) :=
  List.replicate 2 (0, 10) ++ List.replicate 4 (0, 20) ++ List.replicate 20 (1, 30)

/-- The writer runs `TimeSlice(Index1)` at time 40, then goroutine 2 runs a whole `Stats`
call at time 50. -/
def busySecond : List (Nat × Int) :=
  List.replicate 4 (0, 40) ++ List.replicate 20 (2, 50)

/-! ## Lemmas on the machine integers and the state word -/

theorem decodeTimestamp_eq (x : Nat) : decodeTimestamp x = x % 2 ^ 61 := by
  unfold decodeTimestamp andNotUint64
  have h : ((2 ^ 64 - 1) ^^^ (7 <<< 61) : Nat) = 2 ^ 61 - 1 := by decide
  rw [h, Nat.and_pow_two_sub_one_eq_mod]

theorem decodeIndex_eq (x : Nat) : decodeIndex x = x / 2 ^ 61 := by
  unfold decodeIndex; omega

theorem decodeIndex_lt (x : Nat) (h : x < 2 ^ 64) : decodeIndex x < 8 := by
  rw [decodeIndex_eq]; omega

theorem or_shlUint64 (n b : Nat) (hn : n < 2 ^ 61) :
    n ||| shlUint64 b 61 = n + (b % 8) * 2 ^ 61 := by
  have h1 : shlUint64 b 61 = 2 ^ 61 * (b % 8) := by
    unfold shlUint64
    omega
  rw [h1, Nat.or_comm, ← Nat.mul_add_lt_is_or hn]
  omega

theorem toUint64_of_range (x : Int) (h0 : 0 ≤ x) (h1 : x < 2 ^ 64) : toUint64 x = x.toNat := by
  unfold toUint64; omega

theorem packIndex_eq (now index : Int) (h0 : 0 ≤ now) (h1 : now < 2 ^ 61) :
    packIndex (toUint64 now) index = now.toNat + (toUint64 index % 8) * 2 ^ 61 := by
  unfold packIndex
  rw [toUint64_of_range now h0 (by omega), or_shlUint64 _ _ (by omega)]

theorem addInt64_of_range (a b : Int) (h : IsInt64 (a + b)) : addInt64 a b = a + b := by
  unfold IsInt64 at h
  unfold addInt64 toInt64 toUint64; omega

theorem addInt64_addInt64 (a b c : Int) : addInt64 (addInt64 a b) c = addInt64 a (b + c) := by
  unfold addInt64 toInt64 toUint64; omega

theorem isInt64_addInt64 (a b : Int) : IsInt64 (addInt64 a b) := by
  unfold IsInt64 addInt64 toInt64 toUint64; omega

theorem toInt64_subUint64 (n ts : Nat) (hn : n < 2 ^ 63) (ht : ts < 2 ^ 63) :
    toInt64 (subUint64 n ts) = (n : Int) - (ts : Int) := by
  unfold toInt64 subUint64 toUint64; omega

/-- The update made by `atomic.AddInt64` on a `Duration`. -/
theorem addDuration_eq (es : List Entry) (i : Nat) (d : Int) (h : i < es.length) :
    addDuration es i d =
      some (es.modify (fun e => { e with Duration := addInt64 e.Duration d }) i) := by
  unfold addDuration
  rw [List.getElem?_eq_getElem h]
  simp only [Option.some.injEq]
  apply List.ext_getElem?
  intro j
  rw [List.getElem?_set, List.getElem?_modify]
  by_cases hij : i = j
  · subst hij; simp [h]
  · simp [hij]

theorem addCallCount_eq (es : List Entry) (i : Nat) (d : Int) (h : i < es.length) :
    addCallCount es i d =
      some (es.modify (fun e => { e with CallCount := addInt64 e.CallCount d }) i) := by
  unfold addCallCount
  rw [List.getElem?_eq_getElem h]
  simp only [Option.some.injEq]
  apply List.ext_getElem?
  intro j
  rw [List.getElem?_set, List.getElem?_modify]
  by_cases hij : i = j
  · subst hij; simp [h]
  · simp [hij]

theorem TimeSlice_unset (c : Calculator) (index now : Int) (h : c.last = 0) :
    TimeSlice c index now = some { c with last := packIndex (toUint64 now) index } := by
  unfold TimeSlice; simp [h]

theorem TimeSlice_active (c : Calculator) (index now : Int) (h : c.last ≠ 0)
    (hb : decodeIndex c.last < c.entries.length) :
    TimeSlice c index now = some
      { entries := c.entries.modify (fun e =>
          { e with
            Duration := addInt64 e.Duration
              (toInt64 (subUint64 (toUint64 now) (decodeTimestamp c.last))),
            CallCount := addInt64 e.CallCount 1 }) (decodeIndex c.last),
        last := packIndex (toUint64 now) index } := by
  unfold TimeSlice
  simp only [h, ne_eq, not_false_eq_true, if_true]
  rw [addDuration_eq _ _ _ hb]
  simp only
  rw [addCallCount_eq _ _ _ (by simpa using hb), List.modify_modify_eq]
  rfl

theorem closeOut_unset (c : Calculator) (n : Nat) (h : c.last = 0) : closeOut c n = some c := by
  unfold closeOut; simp [h]

theorem closeOut_active (c : Calculator) (n : Nat) (h : c.last ≠ 0)
    (hb : decodeIndex c.last < c.entries.length) :
    closeOut c n = some
      { entries := c.entries.modify (fun e =>
          { e with
            Duration := addInt64 e.Duration (toInt64 (subUint64 n (decodeTimestamp c.last))) })
          (decodeIndex c.last),
        last := n ||| shlUint64 (decodeIndex c.last) 61 } := by
  unfold closeOut
  simp only [h, if_false]
  rw [addDuration_eq _ _ _ hb]

theorem durationAt_modify (es : List Entry) (f : Entry → Entry) (b j : Nat) (hb : b < es.length) :
    durationAt (es.modify f b) j =
      if j = b then (f (es.getD b Entry.zero)).Duration else durationAt es j := by
  unfold durationAt
  simp only [List.getD_eq_getElem?_getD, List.getElem?_modify]
  by_cases h : b = j
  · subst h; simp [List.getElem?_eq_getElem hb]
  · have h' : ¬ j = b := fun e => h e.symm
    simp [h, h']

theorem callCountAt_modify (es : List Entry) (f : Entry → Entry) (b j : Nat) (hb : b < es.length) :
    callCountAt (es.modify f b) j =
      if j = b then (f (es.getD b Entry.zero)).CallCount else callCountAt es j := by
  unfold callCountAt
  simp only [List.getD_eq_getElem?_getD, List.getElem?_modify]
  by_cases h : b = j
  · subst h; simp [List.getElem?_eq_getElem hb]
  · have h' : ¬ j = b := fun e => h e.symm
    simp [h, h']

theorem sumDuration_modify (es : List Entry) (f : Entry → Entry) (b : Nat) (hb : b < es.length) :
    sumDuration (es.modify f b) =
      sumDuration es + ((f (es.getD b Entry.zero)).Duration - durationAt es b) := by
  unfold sumDuration durationAt
  induction es generalizing b with
  | nil => simp at hb
  | cons e es ih =>
    cases b with
    | zero => simp; ring
    | succ b =>
      have hb' : b < es.length := by simpa using hb
      have := ih b hb'
      simp only [List.modify_succ_cons, List.map_cons, List.sum_cons, List.getD_cons_succ] at this ⊢
      rw [this]; ring

theorem toUint64_natCast_small (b : Nat) (hb : b < 2 ^ 64) : toUint64 (b : Int) = b := by
  unfold toUint64; omega

theorem toUint64_index (index : Int) (h0 : 0 ≤ index) (h1 : index < 8) :
    toUint64 index % 8 = index.toNat := by
  unfold toUint64; omega

/-- `TimeSlice` on an active state word, for a clock reading below `2^61`, in closed form. -/
theorem TimeSlice_active_small (c : Calculator) (index now : Int)
    (hlen : c.entries.length = 8) (hlt : c.last < 2 ^ 64) (hlast : c.last ≠ 0)
    (h0 : 0 ≤ now) (h1 : now < 2 ^ 61) :
    TimeSlice c index now = some
      { entries := c.entries.modify (fun e =>
          { e with
            Duration := addInt64 e.Duration (now - ((c.last % 2 ^ 61 : Nat) : Int)),
            CallCount := addInt64 e.CallCount 1 }) (c.last / 2 ^ 61),
        last := now.toNat + (toUint64 index % 8) * 2 ^ 61 } := by
  have hb : decodeIndex c.last < c.entries.length := by
    have := decodeIndex_lt _ hlt; omega
  rw [TimeSlice_active c index now hlast hb, packIndex_eq now index h0 h1,
    toInt64_subUint64 _ _ (by rw [toUint64_of_range now h0 (by omega)]; omega)
      (by rw [decodeTimestamp_eq]; omega),
    toUint64_of_range now h0 (by omega), decodeTimestamp_eq, decodeIndex_eq,
    Int.toNat_of_nonneg h0]

/-- `TimeSlice` on the unset state word, for a clock reading below `2^61`, in closed form. -/
theorem TimeSlice_unset_small (c : Calculator) (index now : Int) (hlast : c.last = 0)
    (h0 : 0 ≤ now) (h1 : now < 2 ^ 61) :
    TimeSlice c index now =
      some { c with last := now.toNat + (toUint64 index % 8) * 2 ^ 61 } := by
  rw [TimeSlice_unset c index now hlast, packIndex_eq now index h0 h1]

/-- `Stats` on an active state word, for a clock reading below `2^61`, in closed form. -/
theorem closeOut_active_small (c : Calculator) (now : Int)
    (hlen : c.entries.length = 8) (hlt : c.last < 2 ^ 64) (hlast : c.last ≠ 0)
    (h0 : 0 ≤ now) (h1 : now < 2 ^ 61) :
    closeOut c (toUint64 now) = some
      { entries := c.entries.modify (fun e =>
          { e with Duration := addInt64 e.Duration (now - ((c.last % 2 ^ 61 : Nat) : Int)) })
          (c.last / 2 ^ 61),
        last := now.toNat + (c.last / 2 ^ 61) * 2 ^ 61 } := by
  have hb8 : decodeIndex c.last < 8 := decodeIndex_lt _ hlt
  have hb : decodeIndex c.last < c.entries.length := by omega
  have hn : toUint64 now = now.toNat := toUint64_of_range now h0 (by omega)
  rw [closeOut_active c _ hlast hb,
    toInt64_subUint64 _ _ (by rw [hn]; omega) (by rw [decodeTimestamp_eq]; omega),
    hn, or_shlUint64 _ _ (by omega), Nat.mod_eq_of_lt hb8, decodeTimestamp_eq, decodeIndex_eq,
    Int.toNat_of_nonneg h0]

theorem Stats_of_closeOut (c : Calculator) (now : Int) (c1 : Calculator)
    (h : closeOut c (toUint64 now) = some c1) :
    Stats c now = some (snapshot c1.entries, c1) := by
  unfold Stats; simp [h]

theorem length_snapshot (es : List Entry) : (snapshot es).length = es.length := by
  simp [snapshot]

theorem durationAt_snapshot (es : List Entry) (j : Nat) :
    durationAt (snapshot es) j = durationAt es j := by
  unfold durationAt snapshot
  simp only [List.getD_eq_getElem?_getD, List.getElem?_map]
  cases es[j]? <;> rfl

theorem callCountAt_snapshot (es : List Entry) (j : Nat) :
    callCountAt (snapshot es) j = callCountAt es j := by
  unfold callCountAt snapshot
  simp only [List.getD_eq_getElem?_getD, List.getElem?_map]
  cases es[j]? <;> rfl

theorem map_duration_snapshot (es : List Entry) :
    (snapshot es).map Entry.Duration = es.map Entry.Duration := by
  simp [snapshot, Function.comp_def]

theorem sumDuration_snapshot (es : List Entry) : sumDuration (snapshot es) = sumDuration es := by
  unfold sumDuration; rw [map_duration_snapshot]

theorem foldl_addInt64 (l : List Entry) (a : Int) (ha : IsInt64 a) :
    l.foldl (fun t r => addInt64 t r.Duration) a = addInt64 a (sumDuration l) := by
  induction l generalizing a with
  | nil =>
    simp only [List.foldl_nil, sumDuration, List.map_nil, List.sum_nil]
    rw [addInt64_of_range _ _ (by simpa using ha)]; simp
  | cons e l ih =>
    simp only [List.foldl_cons]
    rw [ih _ (isInt64_addInt64 _ _), addInt64_addInt64]
    simp [sumDuration]

theorem totalOf_eq (l : List Entry) : totalOf l = addInt64 0 (sumDuration l) := by
  unfold totalOf
  exact foldl_addInt64 l 0 (by unfold IsInt64; omega)

theorem totalOf_of_range (l : List Entry) (h : IsInt64 (sumDuration l)) :
    totalOf l = sumDuration l := by
  rw [totalOf_eq, addInt64_of_range _ _ (by simpa using h)]; simp

theorem totalOf_snapshot_aux (es : List Entry) :
    totalOf (es.map fun e => { Entry.zero with Duration := e.Duration, CallCount := e.CallCount })
      = totalOf es := by
  rw [totalOf_eq, totalOf_eq]
  simp [sumDuration, Function.comp_def]

theorem percentageSum_map (l : List Entry) (t : Int) (ht : t ≠ 0) :
    percentageSum (l.map fun r => { r with Percentage := F64.divInt r.Duration t }) =
      some ((sumDuration l : ℚ) / (t : ℚ)) := by
  induction l with
  | nil => simp [percentageSum, sumDuration]
  | cons e l ih =>
    have hd : F64.divInt e.Duration t = F64.fin ((e.Duration : ℚ) / (t : ℚ)) := by
      simp [F64.divInt, ht]
    simp only [List.map_cons, percentageSum, ih, hd, F64.toRat?]
    simp [sumDuration, add_div]

theorem percentageSum_snapshot (es : List Entry) (ht : totalOf es ≠ 0) :
    percentageSum (snapshot es) = some ((sumDuration es : ℚ) / (totalOf es : ℚ)) := by
  unfold snapshot
  simp only [totalOf_snapshot_aux]
  rw [percentageSum_map _ _ ht]
  simp [sumDuration, Function.comp_def]

theorem run_append (c : Calculator) (l m : List Call) :
    run c (l ++ m) = (run c l).bind fun c1 => run c1 m := by
  induction l generalizing c with
  | nil => simp [run]
  | cons x l ih =>
    simp only [List.cons_append, run]
    cases step c x with
    | none => simp
    | some c1 => simp [ih]

theorem run_singleton (c : Calculator) (x : Call) : run c [x] = step c x := by
  simp only [run]
  cases step c x <;> simp

theorem timeSliceCalls_succ (b t : Nat → Int) (k : Nat) :
    timeSliceCalls b t (k + 1) =
      timeSliceCalls b t k ++ [Call.timeSlice (b (k + 1)) (t (k + 1))] := by
  unfold timeSliceCalls
  rw [List.range_succ, List.map_append]
  rfl

theorem sourceCount_succ (b : Nat → Int) (k j : Nat) :
    sourceCount b (k + 1) j = sourceCount b k j + (if b k = (j : Int) then 1 else 0) := by
  unfold sourceCount
  rw [List.range_succ, List.filter_append, List.length_append]
  by_cases h : b k = (j : Int) <;> simp [h]

theorem sourceDuration_succ (b t : Nat → Int) (k j : Nat) :
    sourceDuration b t (k + 1) j =
      sourceDuration b t k j + (if b k = (j : Int) then t (k + 1) - t k else 0) := by
  unfold sourceDuration
  rw [List.range_succ, List.map_append, List.sum_append]
  simp

theorem sourceDuration_bounds (b t : Nat → Int) (k j : Nat)
    (hmono : ∀ i, i < k → t i ≤ t (i + 1)) :
    0 ≤ sourceDuration b t k j ∧ sourceDuration b t k j ≤ t k - t 0 := by
  induction k with
  | zero => simp [sourceDuration]
  | succ k ih =>
    have h1 := ih (fun i hi => hmono i (by omega))
    have h2 := hmono k (by omega)
    rw [sourceDuration_succ]
    split <;> omega

theorem toInt64_succ (n : Nat) : addInt64 (toInt64 n) 1 = toInt64 (n + 1) := by
  unfold addInt64 toInt64 toUint64; omega

theorem durationAt_new (j : Nat) : durationAt NewCalculator.entries j = 0 := by
  unfold durationAt NewCalculator
  simp only [List.getD_eq_getElem?_getD, List.getElem?_replicate]
  split <;> rfl

theorem callCountAt_new (j : Nat) : callCountAt NewCalculator.entries j = 0 := by
  unfold callCountAt NewCalculator
  simp only [List.getD_eq_getElem?_getD, List.getElem?_replicate]
  split <;> rfl

/-- The calculator after `TimeSlice(b 0), ..., TimeSlice(b k)`. -/
theorem run_timeSliceCalls (b t : Nat → Int) (k : Nat)
    (hb : ∀ i, i ≤ k → 0 ≤ b i ∧ b i < 8) (h0 : 0 < t 0)
    (hmono : ∀ i, i < k → t i ≤ t (i + 1)) (hk : t k < 2 ^ 61) :
    ∃ c, run NewCalculator (timeSliceCalls b t k) = some c ∧
      c.entries.length = 8 ∧
      c.last = (t k).toNat + (b k).toNat * 2 ^ 61 ∧
      t 0 ≤ t k ∧
      ∀ j, callCountAt c.entries j = toInt64 (sourceCount b k j) ∧
        durationAt c.entries j = sourceDuration b t k j := by
  induction k with
  | zero =>
    refine ⟨{ NewCalculator with last := (t 0).toNat + (toUint64 (b 0) % 8) * 2 ^ 61 },
      ?_, ?_, ?_, le_refl _, ?_⟩
    · show run NewCalculator [Call.timeSlice (b 0) (t 0)] = _
      rw [run_singleton]
      exact TimeSlice_unset_small NewCalculator (b 0) (t 0) rfl (by omega) hk
    · rfl
    · have := hb 0 (le_refl _)
      show (t 0).toNat + (toUint64 (b 0) % 8) * 2 ^ 61 = _
      rw [toUint64_index _ this.1 this.2]
    · intro j
      refine ⟨?_, ?_⟩
      · rw [show sourceCount b 0 j = 0 from rfl]
        exact callCountAt_new j
      · rw [show sourceDuration b t 0 j = 0 from rfl]
        exact durationAt_new j
  | succ k ih =>
    have hk1 := hmono k (by omega)
    obtain ⟨c, hrun, hlen, hlast, hle, hj⟩ :=
      ih (fun i hi => hb i (by omega)) (fun i hi => hmono i (by omega)) (by omega)
    have hbk := hb k (by omega)
    have hbk1 := hb (k + 1) (le_refl _)
    have hlt : c.last < 2 ^ 64 := by rw [hlast]; omega
    have hne : c.last ≠ 0 := by rw [hlast]; omega
    have hidx : c.last / 2 ^ 61 = (b k).toNat := by rw [hlast]; omega
    have hts : ((c.last % 2 ^ 61 : Nat) : Int) = t k := by rw [hlast]; omega
    have hbl : (b k).toNat < c.entries.length := by omega
    refine ⟨
      { entries := c.entries.modify (fun e =>
          { e with
            Duration := addInt64 e.Duration (t (k + 1) - ((c.last % 2 ^ 61 : Nat) : Int)),
            CallCount := addInt64 e.CallCount 1 }) (c.last / 2 ^ 61),
        last := (t (k + 1)).toNat + (toUint64 (b (k + 1)) % 8) * 2 ^ 61 },
      ?_, ?_, ?_, by omega, ?_⟩
    · rw [timeSliceCalls_succ, run_append, hrun, Option.some_bind, run_singleton]
      exact TimeSlice_active_small c _ _ hlen hlt hne (by omega) hk
    · simp [hlen]
    · show (t (k + 1)).toNat + (toUint64 (b (k + 1)) % 8) * 2 ^ 61 = _
      rw [toUint64_index _ hbk1.1 hbk1.2]
    · intro j
      obtain ⟨hc, hd⟩ := hj j
      have hbd := sourceDuration_bounds b t k j (fun i hi => hmono i (by omega))
      simp only [hidx, hts]
      rw [callCountAt_modify _ _ _ _ hbl, durationAt_modify _ _ _ _ hbl, sourceCount_succ,
        sourceDuration_succ]
      by_cases hjb : j = (b k).toNat
      · have hjb' : b k = (j : Int) := by omega
        rw [if_pos hjb, if_pos hjb, if_pos hjb', if_pos hjb']
        subst hjb
        refine ⟨?_, ?_⟩
        · show addInt64 (callCountAt c.entries _) 1 = _
          rw [hc, toInt64_succ]
        · show addInt64 (durationAt c.entries _) _ = _
          rw [hd]
          exact addInt64_of_range _ _ (by unfold IsInt64; omega)
      · have hjb' : ¬ b k = (j : Int) := by omega
        rw [if_neg hjb, if_neg hjb, if_neg hjb', if_neg hjb']
        exact ⟨by simpa using hc, by simpa using hd⟩

theorem sourceCount_le (b : Nat → Int) (k j : Nat) : sourceCount b k j ≤ k := by
  unfold sourceCount
  calc ((List.range k).filter fun i => b i = (j : Int)).length
      ≤ (List.range k).length := List.length_filter_le _ _
    _ = k := List.length_range k

theorem sourceCount_const (k : Nat) : sourceCount (fun _ => 0) k 0 = k := by
  induction k with
  | zero => rfl
  | succ k ih => rw [sourceCount_succ, ih]; simp

/-- The slice returned by `Stats` after `TimeSlice(b 0), ..., TimeSlice(b k)`; the call counts
are given up to the `int64` wrap-around. -/
theorem Stats_after_timeSliceCalls (b t : Nat → Int) (k : Nat) (ts : Int)
    (hb : ∀ i, i ≤ k → 0 ≤ b i ∧ b i < 8) (h0 : 0 < t 0)
    (hmono : ∀ i, i < k → t i ≤ t (i + 1)) (hts : t k ≤ ts) (hlt : ts < 2 ^ 61) :
    ∃ c r c1, run NewCalculator (timeSliceCalls b t k) = some c ∧ Stats c ts = some (r, c1) ∧
      r.length = 8 ∧
      ∀ j, callCountAt r j = toInt64 (sourceCount b k j) ∧
        durationAt r j =
          sourceDuration b t k j + (if (j : Int) = b k then ts - t k else 0) := by
  obtain ⟨c, hrun, hlen, hlast, hle, hj⟩ := run_timeSliceCalls b t k hb h0 hmono (by omega)
  have hbk := hb k (le_refl _)
  have hlt64 : c.last < 2 ^ 64 := by rw [hlast]; omega
  have hne : c.last ≠ 0 := by rw [hlast]; omega
  have hidx : c.last / 2 ^ 61 = (b k).toNat := by rw [hlast]; omega
  have htk : ((c.last % 2 ^ 61 : Nat) : Int) = t k := by rw [hlast]; omega
  have hbl : (b k).toNat < c.entries.length := by omega
  have hco := closeOut_active_small c ts hlen hlt64 hne (by omega) hlt
  refine ⟨c, _, _, hrun, Stats_of_closeOut c ts _ hco, ?_, ?_⟩
  · rw [length_snapshot]; simp [hlen]
  · intro j
    obtain ⟨hc, hd⟩ := hj j
    have hbd := sourceDuration_bounds b t k j hmono
    rw [callCountAt_snapshot, durationAt_snapshot]
    simp only [hidx, htk]
    rw [callCountAt_modify _ _ _ _ hbl, durationAt_modify _ _ _ _ hbl]
    by_cases hjb : j = (b k).toNat
    · have hjb' : (j : Int) = b k := by omega
      rw [if_pos hjb, if_pos hjb, if_pos hjb']
      subst hjb
      refine ⟨hc, ?_⟩
      show addInt64 (durationAt c.entries _) _ = _
      rw [hd]
      exact addInt64_of_range _ _ (by unfold IsInt64; omega)
    · have hjb' : ¬ (j : Int) = b k := by omega
      rw [if_neg hjb, if_neg hjb, if_neg hjb']
      exact ⟨hc, by simpa using hd⟩

theorem toInt64_of_lt (n : Nat) (h : n < 2 ^ 63) : toInt64 n = (n : Int) := by
  unfold toInt64; omega

theorem firstTimeSlice_append (pre : List Call) (x : Call) :
    firstTimeSlice (pre ++ [x]) =
      match firstTimeSlice pre with
      | some t0 => some t0
      | none => if x.isTimeSlice then some x.clock else none := by
  induction pre with
  | nil => cases x <;> rfl
  | cons y pre ih =>
    cases y with
    | timeSlice i t => rfl
    | stats t => simpa [firstTimeSlice] using ih

theorem countTimeSlice_append (pre : List Call) (x : Call) :
    countTimeSlice (pre ++ [x]) = countTimeSlice pre + (if x.isTimeSlice then 1 else 0) := by
  unfold countTimeSlice
  rw [List.countP_append]
  cases h : x.isTimeSlice <;> simp [List.countP_cons, h]

theorem countTimeSlice_pos (calls : List Call) (t0 : Int)
    (h : firstTimeSlice calls = some t0) : 1 ≤ countTimeSlice calls := by
  induction calls with
  | nil => simp [firstTimeSlice] at h
  | cons y pre ih =>
    cases y with
    | timeSlice i t => simp [countTimeSlice, List.countP_cons, Call.isTimeSlice]
    | stats t =>
      have := ih (by simpa [firstTimeSlice] using h)
      simpa [countTimeSlice, List.countP_cons, Call.isTimeSlice] using this

theorem validCalls_append (pre : List Call) (x : Call) (h : ValidCalls (pre ++ [x])) :
    ValidCalls pre ∧ x.IndexOk ∧ 0 < x.clock ∧ x.clock < 2 ^ 61 ∧
      ∀ y ∈ pre, y.clock ≤ x.clock := by
  obtain ⟨h1, h2⟩ := h
  rw [List.map_append, List.pairwise_append] at h2
  obtain ⟨h2a, _, h2c⟩ := h2
  have hx := h1 x (by simp)
  refine ⟨⟨fun y hy => h1 y (by simp [hy]), h2a⟩, hx.1, hx.2.1, hx.2.2, ?_⟩
  intro y hy
  exact h2c (y.clock) (List.mem_map_of_mem _ hy) x.clock (by simp)

theorem validCalls_of_append (pre post : List Call) (h : ValidCalls (pre ++ post)) :
    ValidCalls pre := by
  obtain ⟨h1, h2⟩ := h
  rw [List.map_append, List.pairwise_append] at h2
  exact ⟨fun y hy => h1 y (by simp [hy]), h2.1⟩

theorem sumDuration_new : sumDuration NewCalculator.entries = 0 := by decide

/-- Adding a non-negative amount to the duration of one bucket. -/
theorem modify_duration_facts (es : List Entry) (f : Entry → Entry) (b : Nat) (d T : Int)
    (hb : b < es.length) (hf : ∀ e, (f e).Duration = addInt64 e.Duration d) (hd : 0 ≤ d)
    (hes : ∀ j, 0 ≤ durationAt es j ∧ durationAt es j ≤ T) (hT : T + d < 2 ^ 63) :
    sumDuration (es.modify f b) = sumDuration es + d ∧
      ∀ j, durationAt es j ≤ durationAt (es.modify f b) j ∧
        0 ≤ durationAt (es.modify f b) j ∧ durationAt (es.modify f b) j ≤ T + d := by
  have hbb := hes b
  have hexact : (f (es.getD b Entry.zero)).Duration = durationAt es b + d := by
    rw [hf]
    exact addInt64_of_range _ _ (by unfold IsInt64; unfold durationAt at hbb; omega)
  refine ⟨?_, ?_⟩
  · rw [sumDuration_modify _ _ _ hb, hexact]; omega
  · intro j
    have hj := hes j
    rw [durationAt_modify _ _ _ _ hb]
    by_cases hjb : j = b
    · rw [if_pos hjb, hexact]; subst hjb; omega
    · rw [if_neg hjb]; omega

theorem getLast?_append_singleton (pre : List Call) (x : Call) :
    (pre ++ [x]).getLast? = some x := by simp

/-- A modification that leaves `CallCount` alone. -/
theorem callCountAt_modify_same (es : List Entry) (f : Entry → Entry) (b j : Nat)
    (hb : b < es.length) (hf : ∀ e, (f e).CallCount = e.CallCount) :
    callCountAt (es.modify f b) j = callCountAt es j := by
  rw [callCountAt_modify _ _ _ _ hb]
  split
  · next h => subst h; rw [hf]; rfl
  · rfl

/-- A modification that adds one to `CallCount`. -/
theorem callCountAt_modify_succ (es : List Entry) (f : Entry → Entry) (b j : Nat)
    (hb : b < es.length) (hf : ∀ e, (f e).CallCount = addInt64 e.CallCount 1) :
    callCountAt (es.modify f b) j =
      if j = b then addInt64 (callCountAt es j) 1 else callCountAt es j := by
  rw [callCountAt_modify _ _ _ _ hb]
  split
  · next h => subst h; rw [hf]; rfl
  · rfl

/-- One call keeps the invariant, never decreases a duration, and leaves each call count as
it is or adds one to it. -/
theorem step_invariant (pre : List Call) (x : Call) (c : Calculator)
    (hv : ValidCalls (pre ++ [x])) (hinv : Invariant pre c) :
    ∃ c1, step c x = some c1 ∧ Invariant (pre ++ [x]) c1 ∧
      (∀ j, durationAt c.entries j ≤ durationAt c1.entries j) ∧
      (∀ j, callCountAt c1.entries j = callCountAt c.entries j ∨
        (1 ≤ countTimeSlice pre ∧ x.isTimeSlice = true ∧
          callCountAt c1.entries j = addInt64 (callCountAt c.entries j) 1)) := by
  obtain ⟨_, hok, hpos, hlt, hle⟩ := validCalls_append pre x hv
  obtain ⟨hlen, hlast, hcc, hnone, hsome⟩ := hinv
  have hfirst := firstTimeSlice_append pre x
  have hcount := countTimeSlice_append pre x
  cases hft : firstTimeSlice pre with
  | none =>
    have hc := hnone hft
    subst hc
    rw [hft] at hfirst
    cases x with
    | stats t =>
      refine ⟨NewCalculator, ?_, ⟨hlen, hlast, ?_, fun _ => rfl, ?_⟩, fun _ => le_refl _,
        fun _ => Or.inl rfl⟩
      · show (Stats NewCalculator t).map Prod.snd = _
        rw [Stats_of_closeOut _ _ _ (closeOut_unset _ _ rfl)]; rfl
      · intro j
        obtain ⟨n, h1, h2⟩ := hcc j
        exact ⟨n, h1, by omega⟩
      · intro t0 h0
        rw [hfirst] at h0
        simp [Call.isTimeSlice] at h0
    | timeSlice i t =>
      have hi : 0 ≤ i ∧ i < 8 := hok
      have ht : 0 < t := hpos
      have ht' : t < 2 ^ 61 := hlt
      refine ⟨{ NewCalculator with last := t.toNat + (toUint64 i % 8) * 2 ^ 61 }, ?_,
        ⟨hlen, ?_, ?_, ?_, ?_⟩, fun _ => le_refl _, fun _ => Or.inl rfl⟩
      · exact TimeSlice_unset_small NewCalculator i t rfl (by omega) ht'
      · show t.toNat + (toUint64 i % 8) * 2 ^ 61 < 2 ^ 64
        omega
      · intro j
        exact ⟨0, by rw [show callCountAt _ j = callCountAt NewCalculator.entries j from rfl,
          callCountAt_new]; rfl, by omega⟩
      · intro h0
        rw [hfirst] at h0
        simp [Call.isTimeSlice] at h0
      · intro t0 h0
        rw [hfirst] at h0
        simp only [Call.isTimeSlice, if_true, Call.clock, Option.some.injEq] at h0
        subst h0
        refine ⟨ht, ?_, Call.timeSlice i t, getLast?_append_singleton _ _, ?_, ?_, ?_⟩
        · show t.toNat + (toUint64 i % 8) * 2 ^ 61 ≠ 0
          omega
        · show ((((t.toNat + (toUint64 i % 8) * 2 ^ 61) % 2 ^ 61 : Nat)) : Int) = t
          omega
        · show sumDuration NewCalculator.entries = t - t
          rw [sumDuration_new]; omega
        · intro j
          show 0 ≤ durationAt NewCalculator.entries j ∧
            durationAt NewCalculator.entries j ≤ t - t
          rw [durationAt_new]; omega
  | some t0 =>
    obtain ⟨ht0, hne, xl, hgl, hts, hsum, hdur⟩ := hsome t0 hft
    have hxl : xl ∈ pre := List.mem_of_mem_getLast? hgl
    have hxle := hle xl hxl
    have hcp := countTimeSlice_pos pre t0 hft
    have hb : c.last / 2 ^ 61 < c.entries.length := by omega
    rw [hft] at hfirst
    have hfirst' : firstTimeSlice (pre ++ [x]) = some t0 := hfirst
    cases x with
    | stats t =>
      have ht : 0 < t := hpos
      have ht' : t < 2 ^ 61 := hlt
      have hxle' : xl.clock ≤ t := hxle
      have hco := closeOut_active_small c t hlen hlast hne (by omega) ht'
      obtain ⟨hs, hd⟩ := modify_duration_facts c.entries (fun e =>
          { e with Duration := addInt64 e.Duration (t - ((c.last % 2 ^ 61 : Nat) : Int)) })
        (c.last / 2 ^ 61) (t - ((c.last % 2 ^ 61 : Nat) : Int)) (xl.clock - t0) hb
        (fun _ => rfl) (by omega) hdur (by omega)
      have hccj := fun j => callCountAt_modify_same c.entries (fun e =>
          { e with Duration := addInt64 e.Duration (t - ((c.last % 2 ^ 61 : Nat) : Int)) })
        (c.last / 2 ^ 61) j hb (fun _ => rfl)
      refine ⟨
        { entries := c.entries.modify (fun e =>
            { e with Duration := addInt64 e.Duration (t - ((c.last % 2 ^ 61 : Nat) : Int)) })
            (c.last / 2 ^ 61),
          last := t.toNat + (c.last / 2 ^ 61) * 2 ^ 61 },
        ?_, ⟨?_, ?_, ?_, ?_, ?_⟩, fun j => (hd j).1, fun j => Or.inl (hccj j)⟩
      · show (Stats c t).map Prod.snd = _
        rw [Stats_of_closeOut _ _ _ hco]; rfl
      · simp [hlen]
      · show t.toNat + (c.last / 2 ^ 61) * 2 ^ 61 < 2 ^ 64
        omega
      · intro j
        obtain ⟨n, h1, h2⟩ := hcc j
        exact ⟨n, (hccj j).trans h1, by omega⟩
      · intro h0
        rw [hfirst'] at h0
        exact absurd h0 (by simp)
      · intro t1 h1
        rw [hfirst'] at h1
        simp only [Option.some.injEq] at h1
        subst h1
        refine ⟨ht0, ?_, Call.stats t, getLast?_append_singleton _ _, ?_, ?_, ?_⟩
        · show t.toNat + (c.last / 2 ^ 61) * 2 ^ 61 ≠ 0
          omega
        · show ((((t.toNat + (c.last / 2 ^ 61) * 2 ^ 61) % 2 ^ 61 : Nat)) : Int) = t
          omega
        · show sumDuration (c.entries.modify _ _) = t - t0
          rw [hs, hsum]; omega
        · intro j
          have := hd j
          show 0 ≤ durationAt (c.entries.modify _ _) j ∧
            durationAt (c.entries.modify _ _) j ≤ t - t0
          omega
    | timeSlice i t =>
      have hi : 0 ≤ i ∧ i < 8 := hok
      have ht : 0 < t := hpos
      have ht' : t < 2 ^ 61 := hlt
      have hxle' : xl.clock ≤ t := hxle
      have hts' := TimeSlice_active_small c i t hlen hlast hne (by omega) ht'
      obtain ⟨hs, hd⟩ := modify_duration_facts c.entries (fun e =>
          { e with
            Duration := addInt64 e.Duration (t - ((c.last % 2 ^ 61 : Nat) : Int)),
            CallCount := addInt64 e.CallCount 1 })
        (c.last / 2 ^ 61) (t - ((c.last % 2 ^ 61 : Nat) : Int)) (xl.clock - t0) hb
        (fun _ => rfl) (by omega) hdur (by omega)
      have hccj := fun j => callCountAt_modify_succ c.entries (fun e =>
          { e with
            Duration := addInt64 e.Duration (t - ((c.last % 2 ^ 61 : Nat) : Int)),
            CallCount := addInt64 e.CallCount 1 })
        (c.last / 2 ^ 61) j hb (fun _ => rfl)
      refine ⟨
        { entries := c.entries.modify (fun e =>
            { e with
              Duration := addInt64 e.Duration (t - ((c.last % 2 ^ 61 : Nat) : Int)),
              CallCount := addInt64 e.CallCount 1 }) (c.last / 2 ^ 61),
          last := t.toNat + (toUint64 i % 8) * 2 ^ 61 },
        hts', ⟨?_, ?_, ?_, ?_, ?_⟩, fun j => (hd j).1, fun j => ?_⟩
      · simp [hlen]
      · show t.toNat + (toUint64 i % 8) * 2 ^ 61 < 2 ^ 64
        omega
      · intro j
        obtain ⟨n, h1, h2⟩ := hcc j
        show ∃ n : Nat, callCountAt (c.entries.modify _ _) j = toInt64 n ∧ _
        rw [hccj j, hcount]
        simp only [Call.isTimeSlice, if_true]
        split
        · exact ⟨n + 1, by rw [h1, toInt64_succ], by omega⟩
        · exact ⟨n, h1, by omega⟩
      · intro h0
        rw [hfirst'] at h0
        exact absurd h0 (by simp)
      · intro t1 h1
        rw [hfirst'] at h1
        simp only [Option.some.injEq] at h1
        subst h1
        refine ⟨ht0, ?_, Call.timeSlice i t, getLast?_append_singleton _ _, ?_, ?_, ?_⟩
        · show t.toNat + (toUint64 i % 8) * 2 ^ 61 ≠ 0
          omega
        · show ((((t.toNat + (toUint64 i % 8) * 2 ^ 61) % 2 ^ 61 : Nat)) : Int) = t
          omega
        · show sumDuration (c.entries.modify _ _) = t - t0
          rw [hs, hsum]; omega
        · intro j
          have := hd j
          show 0 ≤ durationAt (c.entries.modify _ _) j ∧
            durationAt (c.entries.modify _ _) j ≤ t - t0
          omega
      · show callCountAt (c.entries.modify _ _) j = _ ∨ (_ ∧ _ ∧
          callCountAt (c.entries.modify _ _) j = _)
        rw [hccj j]
        split
        · exact Or.inr ⟨hcp, rfl, rfl⟩
        · exact Or.inl rfl

theorem invariant_new : Invariant [] NewCalculator := by
  refine ⟨rfl, by decide, ?_, fun _ => rfl, ?_⟩
  · intro j
    exact ⟨0, by rw [callCountAt_new]; rfl, by omega⟩
  · intro t0 h
    simp [firstTimeSlice] at h

/-- Every valid call sequence runs to a calculator that satisfies the invariant. -/
theorem run_invariant (calls : List Call) (hv : ValidCalls calls) :
    ∃ c, run NewCalculator calls = some c ∧ Invariant calls c := by
  induction calls using List.reverseRecOn with
  | nil => exact ⟨NewCalculator, rfl, invariant_new⟩
  | append_singleton pre x ih =>
    obtain ⟨c, hrun, hinv⟩ := ih (validCalls_append pre x hv).1
    obtain ⟨c1, hstep, hinv1, _, _⟩ := step_invariant pre x c hv hinv
    exact ⟨c1, by rw [run_append, hrun, Option.some_bind, run_singleton, hstep], hinv1⟩

theorem lastSinceFirstTimeSlice_eq (calls : List Call) (t0 : Int)
    (h : firstTimeSlice calls = some t0) : lastSinceFirstTimeSlice calls = calls.getLast? := by
  unfold lastSinceFirstTimeSlice
  induction calls with
  | nil => rfl
  | cons y rest ih =>
    cases y with
    | timeSlice i t => simp [List.dropWhile, Call.isTimeSlice]
    | stats t =>
      have h' : firstTimeSlice rest = some t0 := by simpa [firstTimeSlice] using h
      have hne : rest ≠ [] := by
        intro e; subst e; simp [firstTimeSlice] at h'
      obtain ⟨z, rest', hz⟩ := List.exists_cons_of_ne_nil hne
      rw [show List.dropWhile (fun x => !x.isTimeSlice) (Call.stats t :: rest) =
        List.dropWhile (fun x => !x.isTimeSlice) rest by simp [List.dropWhile, Call.isTimeSlice],
        ih h', hz, List.getLast?_cons_cons]

theorem countTimeSlice_append_le (pre post : List Call) :
    countTimeSlice pre ≤ countTimeSlice (pre ++ post) := by
  unfold countTimeSlice
  rw [List.countP_append]; omega

theorem append_cons_eq (pre : List Call) (x : Call) (post : List Call) :
    pre ++ x :: post = (pre ++ [x]) ++ post := by simp

theorem durationAt_modify_add (es : List Entry) (f : Entry → Entry) (b j : Nat) (d : Int)
    (hb : b < es.length) (hf : ∀ e, (f e).Duration = addInt64 e.Duration d) :
    durationAt (es.modify f b) j =
      if j = b then addInt64 (durationAt es j) d else durationAt es j := by
  rw [durationAt_modify _ _ _ _ hb]
  split
  · next h => subst h; rw [hf]; rfl
  · rfl

theorem isInt64_durationAt (c : Calculator) (hwf : WellFormed c) (j : Nat) :
    IsInt64 (durationAt c.entries j) := by
  unfold durationAt
  rw [List.getD_eq_getElem?_getD]
  cases h : c.entries[j]? with
  | none => exact ⟨by decide, by decide⟩
  | some e => exact (hwf.2.2 e (List.getElem?_mem h)).1

/-- What a `Stats` call at a clock reading below `2^61` does on an active state word. -/
theorem Stats_active_result (c : Calculator) (now : Int)
    (hlen : c.entries.length = 8) (hlt : c.last < 2 ^ 64) (hne : c.last ≠ 0)
    (h0 : 0 ≤ now) (h1 : now < 2 ^ 61) :
    ∃ r c1, Stats c now = some (r, c1) ∧ r = snapshot c1.entries ∧
      c1.entries.length = 8 ∧ c1.last = now.toNat + (c.last / 2 ^ 61) * 2 ^ 61 ∧
      (∀ j, callCountAt c1.entries j = callCountAt c.entries j) ∧
      (∀ j, durationAt c1.entries j =
        if j = c.last / 2 ^ 61 then
          addInt64 (durationAt c.entries j) (now - ((c.last % 2 ^ 61 : Nat) : Int))
        else durationAt c.entries j) ∧
      (∀ j, j ≠ c.last / 2 ^ 61 → c1.entries[j]? = c.entries[j]?) := by
  have hb : c.last / 2 ^ 61 < c.entries.length := by omega
  refine ⟨_, _, Stats_of_closeOut c now _ (closeOut_active_small c now hlen hlt hne h0 h1), rfl,
    by simp [hlen], rfl, ?_, ?_, ?_⟩
  · intro j
    exact callCountAt_modify_same _ _ _ _ hb (fun _ => rfl)
  · intro j
    exact durationAt_modify_add _ _ _ _ _ hb (fun _ => rfl)
  · intro j hj
    exact List.getElem?_modify_ne _ _ (fun e => hj e.symm)

/-- What a `TimeSlice` call at a clock reading below `2^61` does on an active state word. -/
theorem TimeSlice_active_result (c : Calculator) (index now : Int)
    (hlen : c.entries.length = 8) (hlt : c.last < 2 ^ 64) (hne : c.last ≠ 0)
    (h0 : 0 ≤ now) (h1 : now < 2 ^ 61) :
    ∃ c1, TimeSlice c index now = some c1 ∧
      c1.entries.length = 8 ∧ c1.last = now.toNat + (toUint64 index % 8) * 2 ^ 61 ∧
      (∀ j, callCountAt c1.entries j =
        if j = c.last / 2 ^ 61 then addInt64 (callCountAt c.entries j) 1
        else callCountAt c.entries j) ∧
      (∀ j, durationAt c1.entries j =
        if j = c.last / 2 ^ 61 then
          addInt64 (durationAt c.entries j) (now - ((c.last % 2 ^ 61 : Nat) : Int))
        else durationAt c.entries j) ∧
      (∀ j, j ≠ c.last / 2 ^ 61 → c1.entries[j]? = c.entries[j]?) := by
  have hb : c.last / 2 ^ 61 < c.entries.length := by omega
  refine ⟨_, TimeSlice_active_small c index now hlen hlt hne h0 h1,
    by simp [hlen], rfl, ?_, ?_, ?_⟩
  · intro j
    exact callCountAt_modify_succ _ _ _ _ hb (fun _ => rfl)
  · intro j
    exact durationAt_modify_add _ _ _ _ _ hb (fun _ => rfl)
  · intro j hj
    exact List.getElem?_modify_ne _ _ (fun e => hj e.symm)

theorem closeOut_returns (c : Calculator) (n : Nat) (hlen : c.entries.length = 8)
    (hlt : c.last < 2 ^ 64) : ∃ c1, closeOut c n = some c1 := by
  by_cases h : c.last = 0
  · exact ⟨c, closeOut_unset c n h⟩
  · have hb : decodeIndex c.last < c.entries.length := by
      have := decodeIndex_lt _ hlt; omega
    exact ⟨_, closeOut_active c n h hb⟩

theorem totalOf_snapshot (es : List Entry) : totalOf (snapshot es) = totalOf es := by
  rw [totalOf_eq, totalOf_eq, sumDuration_snapshot]

theorem percentageSum_snapshot_of_range (es : List Entry) (h0 : 0 < sumDuration es)
    (h1 : sumDuration es < 2 ^ 63) : percentageSum (snapshot es) = some 1 := by
  have ht : totalOf es = sumDuration es :=
    totalOf_of_range es (by unfold IsInt64; omega)
  have hne : totalOf es ≠ 0 := by rw [ht]; omega
  rw [percentageSum_snapshot es hne, ht]
  have hq : (sumDuration es : ℚ) ≠ 0 := by exact_mod_cast (by omega : sumDuration es ≠ 0)
  rw [div_self hq]

theorem toInt64_emod (x : Nat) : toInt64 x % 2 ^ 64 = (x : Int) % 2 ^ 64 := by
  unfold toInt64; omega

theorem toUint64_cast (x : Int) : ((toUint64 x : Nat) : Int) = x % 2 ^ 64 := by
  unfold toUint64; omega

theorem addInt64_emod (a b : Int) : addInt64 a b % 2 ^ 64 = (a + b) % 2 ^ 64 := by
  unfold addInt64
  rw [toInt64_emod, toUint64_cast]
  omega

theorem addInt64_congr (a b a1 b1 : Int) (h : (a + b) % 2 ^ 64 = (a1 + b1) % 2 ^ 64) :
    addInt64 a b = addInt64 a1 b1 := by
  unfold addInt64 toUint64
  rw [h]

/-- The two additions made around a `Stats` call amount to the single addition made
without it. -/
theorem addInt64_split (d : Int) (n1 n2 ts : Nat) :
    addInt64 (addInt64 d ((n1 : Int) - (ts : Int))) (toInt64 (subUint64 n2 n1)) =
      addInt64 d (toInt64 (subUint64 n2 ts)) := by
  apply addInt64_congr
  have e1 := addInt64_emod d ((n1 : Int) - (ts : Int))
  have e2 := toInt64_emod (subUint64 n2 n1)
  have e3 := toInt64_emod (subUint64 n2 ts)
  simp only [subUint64] at e2 e3 ⊢
  rw [toUint64_cast] at e2 e3
  omega

theorem addDuration_some (es es1 : List Entry) (i : Nat) (d : Int)
    (h : addDuration es i d = some es1) :
    i < es.length ∧
      es1 = es.modify (fun e => { e with Duration := addInt64 e.Duration d }) i := by
  by_cases hi : i < es.length
  · rw [addDuration_eq es i d hi] at h
    exact ⟨hi, (Option.some.inj h).symm⟩
  · unfold addDuration at h
    rw [List.getElem?_eq_none (by omega)] at h
    exact absurd h (by simp)

theorem addCallCount_some (es es1 : List Entry) (i : Nat) (d : Int)
    (h : addCallCount es i d = some es1) :
    i < es.length ∧
      es1 = es.modify (fun e => { e with CallCount := addInt64 e.CallCount d }) i := by
  by_cases hi : i < es.length
  · rw [addCallCount_eq es i d hi] at h
    exact ⟨hi, (Option.some.inj h).symm⟩
  · unfold addCallCount at h
    rw [List.getElem?_eq_none (by omega)] at h
    exact absurd h (by simp)

theorem durationAt_modify_same (es : List Entry) (f : Entry → Entry) (b j : Nat)
    (hb : b < es.length) (hf : ∀ e, (f e).Duration = e.Duration) :
    durationAt (es.modify f b) j = durationAt es j := by
  rw [durationAt_modify _ _ _ _ hb]
  split
  · next h => subst h; rw [hf]; rfl
  · rfl

theorem callCountAt_eq_getD (r : List Entry) (i : Nat) :
    callCountAt r i = (r.map Entry.CallCount).getD i 0 := by
  unfold callCountAt
  simp only [List.getD_eq_getElem?_getD, List.getElem?_map]
  cases r[i]? <;> rfl

theorem records_afterRecord (c : Calculator) (result : List Entry) :
    (StatsPc.afterRecord c result).records.map Entry.CallCount =
      result.map Entry.CallCount := by
  unfold StatsPc.afterRecord
  split
  · rfl
  · simp [StatsPc.records, Function.comp_def]

theorem returned_afterRecord (c : Calculator) (result r : List Entry)
    (h : StatsPc.afterRecord c result = StatsPc.returned r) :
    c.entries.length ≤ result.length ∧ r.length = result.length := by
  unfold StatsPc.afterRecord at h
  split at h
  · exact absurd h (by simp)
  · injection h with h
    subst h
    exact ⟨by omega, by simp⟩

/-- The effect of one atomic step of a `Stats` goroutine. -/
theorem statsPc_step_spec (pc pc1 : StatsPc) (c c1 : Calculator) (now : Int)
    (h : pc.step c now = some (pc1, c1)) :
    c1.entries.length = c.entries.length ∧
    (∀ j, callCountAt c1.entries j = callCountAt c.entries j) ∧
    (pc1.records.map Entry.CallCount = pc.records.map Entry.CallCount ∨
      (pc.records.length < c.entries.length ∧
        pc1.records.map Entry.CallCount =
          pc.records.map Entry.CallCount ++ [callCountAt c.entries pc.records.length])) ∧
    (∀ r, pc1 = StatsPc.returned r → c.entries.length ≤ r.length) ∧
    (∀ j, durationAt c1.entries j = durationAt c.entries j ∨
      ∃ n last index, pc = StatsPc.addDuration n last index ∧
        durationAt c1.entries j =
          addInt64 (durationAt c.entries j)
            (toInt64 (subUint64 n (decodeTimestamp last)))) := by
  cases pc with
  | readClock =>
    simp only [StatsPc.step, Option.some.injEq, Prod.mk.injEq] at h
    obtain ⟨h1, h2⟩ := h
    subst h1 h2
    exact ⟨rfl, fun _ => rfl, Or.inl rfl, fun r hr => absurd hr (by simp),
      fun _ => Or.inl rfl⟩
  | load n =>
    simp only [StatsPc.step] at h
    split at h
    · simp only [Option.some.injEq, Prod.mk.injEq] at h
      obtain ⟨h1, h2⟩ := h
      subst h1 h2
      refine ⟨rfl, fun _ => rfl, Or.inl ?_, ?_, fun _ => Or.inl rfl⟩
      · rw [records_afterRecord]; rfl
      · intro r hr
        have := returned_afterRecord _ _ _ hr
        omega
    · simp only [Option.some.injEq, Prod.mk.injEq] at h
      obtain ⟨h1, h2⟩ := h
      subst h1 h2
      exact ⟨rfl, fun _ => rfl, Or.inl rfl, fun r hr => absurd hr (by simp),
        fun _ => Or.inl rfl⟩
  | cas n last =>
    simp only [StatsPc.step] at h
    split at h
    · simp only [Option.some.injEq, Prod.mk.injEq] at h
      obtain ⟨h1, h2⟩ := h
      subst h1 h2
      exact ⟨rfl, fun _ => rfl, Or.inl rfl, fun r hr => absurd hr (by simp),
        fun _ => Or.inl rfl⟩
    · simp only [Option.some.injEq, Prod.mk.injEq] at h
      obtain ⟨h1, h2⟩ := h
      subst h1 h2
      exact ⟨rfl, fun _ => rfl, Or.inl rfl, fun r hr => absurd hr (by simp),
        fun _ => Or.inl rfl⟩
  | addDuration n last index =>
    simp only [StatsPc.step] at h
    split at h
    · exact absurd h (by simp)
    · next es1 hes =>
      simp only [Option.some.injEq, Prod.mk.injEq] at h
      obtain ⟨h1, h2⟩ := h
      obtain ⟨hi, hes1⟩ := addDuration_some _ _ _ _ hes
      subst h2
      have hlen : es1.length = c.entries.length := by rw [hes1]; simp
      refine ⟨hlen, ?_, Or.inl ?_, ?_, ?_⟩
      · intro j
        show callCountAt es1 j = _
        rw [hes1]
        exact callCountAt_modify_same _ _ _ _ hi (fun _ => rfl)
      · rw [← h1, records_afterRecord]; rfl
      · intro r hr
        rw [← h1] at hr
        have := returned_afterRecord _ _ _ hr
        simp only [hlen] at this
        omega
      · intro j
        show durationAt es1 j = _ ∨ _
        rw [hes1, durationAt_modify_add _ _ _ _ _ hi (fun _ => rfl)]
        split
        · exact Or.inr ⟨n, last, index, rfl, rfl⟩
        · exact Or.inl rfl
  | loadDuration result =>
    simp only [StatsPc.step] at h
    split at h
    · exact absurd h (by simp)
    · simp only [Option.some.injEq, Prod.mk.injEq] at h
      obtain ⟨h1, h2⟩ := h
      subst h1 h2
      exact ⟨rfl, fun _ => rfl, Or.inl rfl, fun r hr => absurd hr (by simp),
        fun _ => Or.inl rfl⟩
  | loadCallCount result d =>
    simp only [StatsPc.step] at h
    split at h
    · exact absurd h (by simp)
    · next e he =>
      simp only [Option.some.injEq, Prod.mk.injEq] at h
      obtain ⟨h1, h2⟩ := h
      subst h1 h2
      have hlt : result.length < c.entries.length := by
        by_contra hc
        rw [List.getElem?_eq_none (by omega)] at he
        exact absurd he (by simp)
      refine ⟨rfl, fun _ => rfl, Or.inr ⟨hlt, ?_⟩, ?_, fun _ => Or.inl rfl⟩
      · rw [records_afterRecord]
        simp only [List.map_append, List.map_cons, List.map_nil, StatsPc.records]
        congr 2
        unfold callCountAt
        rw [List.getD_eq_getElem?_getD, he]
        rfl
      · intro r hr
        have := returned_afterRecord _ _ _ hr
        simp only [List.length_append, List.length_singleton] at this
        omega
  | returned result =>
    simp [StatsPc.step] at h

/-- The effect of one atomic step of the writer. -/
theorem writer_step_spec (w w1 : Writer) (c c1 : Calculator) (now : Int)
    (h : w.step c now = some (w1, c1)) :
    c1.entries.length = c.entries.length ∧
    (∀ j, callCountAt c1.entries j = callCountAt c.entries j ∨
      callCountAt c1.entries j = addInt64 (callCountAt c.entries j) 1) ∧
    (∀ j, durationAt c1.entries j = durationAt c.entries j ∨
      ∃ index n last, w.current = some (index, TimeSlicePc.addDuration n last) ∧
        durationAt c1.entries j =
          addInt64 (durationAt c.entries j)
            (toInt64 (subUint64 n (decodeTimestamp last)))) := by
  unfold Writer.step at h
  split at h
  · split at h
    · exact absurd h (by simp)
    · simp only [Option.some.injEq, Prod.mk.injEq] at h
      obtain ⟨_, h2⟩ := h
      subst h2
      exact ⟨rfl, fun _ => Or.inl rfl, fun _ => Or.inl rfl⟩
  · dsimp only at h
    split at h
    · simp only [Option.some.injEq, Prod.mk.injEq] at h
      obtain ⟨_, h2⟩ := h
      subst h2
      exact ⟨rfl, fun _ => Or.inl rfl, fun _ => Or.inl rfl⟩
    · simp only [Option.some.injEq, Prod.mk.injEq] at h
      obtain ⟨_, h2⟩ := h
      subst h2
      exact ⟨rfl, fun _ => Or.inl rfl, fun _ => Or.inl rfl⟩
  · next index n last hcur =>
    dsimp only at h
    split at h
    · exact absurd h (by simp)
    · next es1 hes =>
      simp only [Option.some.injEq, Prod.mk.injEq] at h
      obtain ⟨_, h2⟩ := h
      obtain ⟨hi, hes1⟩ := addDuration_some _ _ _ _ hes
      subst h2
      refine ⟨by rw [hes1]; simp, ?_, ?_⟩
      · intro j
        refine Or.inl ?_
        show callCountAt es1 j = _
        rw [hes1]
        exact callCountAt_modify_same _ _ _ _ hi (fun _ => rfl)
      · intro j
        show durationAt es1 j = _ ∨ _
        rw [hes1, durationAt_modify_add _ _ _ _ _ hi (fun _ => rfl)]
        split
        · exact Or.inr ⟨index, n, last, hcur, rfl⟩
        · exact Or.inl rfl
  · next lastIndex hcur =>
    split at h
    · exact absurd h (by simp)
    · next es2 hes =>
      simp only [Option.some.injEq, Prod.mk.injEq] at h
      obtain ⟨_, h2⟩ := h
      obtain ⟨hi, hes2⟩ := addCallCount_some _ _ _ _ hes
      subst h2
      refine ⟨by rw [hes2]; simp, ?_, ?_⟩
      · intro j
        show callCountAt es2 j = _ ∨ callCountAt es2 j = _
        rw [hes2, callCountAt_modify_succ _ _ _ _ hi (fun _ => rfl)]
        split
        · exact Or.inr rfl
        · exact Or.inl rfl
      · intro j
        refine Or.inl ?_
        show durationAt es2 j = _
        rw [hes2]
        exact durationAt_modify_same _ _ _ _ hi (fun _ => rfl)

theorem getD_append_singleton (l : List Int) (x : Int) (i : Nat) :
    (l ++ [x]).getD i 0 = if i < l.length then l.getD i 0 else if i = l.length then x else 0 := by
  simp only [List.getD_eq_getElem?_getD]
  by_cases h1 : i < l.length
  · rw [if_pos h1, List.getElem?_append_left h1]
  · rw [if_neg h1]
    by_cases h2 : i = l.length
    · rw [if_pos h2, h2]; simp
    · rw [if_neg h2, List.getElem?_eq_none (by simp; omega)]; rfl

/-- The effect of one atomic step of a configuration. -/
theorem config_step_spec (cfg cfg1 : Config) (tid : Nat) (now : Int)
    (h : cfg.step tid now = some cfg1) :
    cfg1.shared.entries.length = cfg.shared.entries.length ∧
    (∀ j, callCountAt cfg1.shared.entries j = callCountAt cfg.shared.entries j ∨
      callCountAt cfg1.shared.entries j = addInt64 (callCountAt cfg.shared.entries j) 1) ∧
    (∀ j, durationAt cfg1.shared.entries j = durationAt cfg.shared.entries j ∨
      ∃ n last, cfg.addingDuration tid = some (n, last) ∧
        durationAt cfg1.shared.entries j =
          addInt64 (durationAt cfg.shared.entries j)
            (toInt64 (subUint64 n (decodeTimestamp last)))) ∧
    (∀ (k : Nat) (pc1 : StatsPc), cfg1.readers[k]? = some pc1 →
      ∃ pc, cfg.readers[k]? = some pc ∧
        (pc1 = pc ∨
          ((∀ j, callCountAt cfg1.shared.entries j = callCountAt cfg.shared.entries j) ∧
            (pc1.records.map Entry.CallCount = pc.records.map Entry.CallCount ∨
              (pc.records.length < cfg.shared.entries.length ∧
                pc1.records.map Entry.CallCount =
                  pc.records.map Entry.CallCount ++
                    [callCountAt cfg.shared.entries pc.records.length])) ∧
            (∀ r, pc1 = StatsPc.returned r → cfg.shared.entries.length ≤ r.length)))) := by
  cases tid with
  | zero =>
    simp only [Config.step] at h
    split at h
    · exact absurd h (by simp)
    · next w c hw =>
      simp only [Option.some.injEq] at h
      subst h
      obtain ⟨h1, h2, h3⟩ := writer_step_spec _ _ _ _ _ hw
      refine ⟨h1, h2, ?_, ?_⟩
      · intro j
        rcases h3 j with e | ⟨index, n, last, hc, e⟩
        · exact Or.inl e
        · exact Or.inr ⟨n, last, by simp [Config.addingDuration, hc], e⟩
      · intro k pc1 hk
        exact ⟨pc1, hk, Or.inl rfl⟩
  | succ t =>
    simp only [Config.step] at h
    split at h
    · exact absurd h (by simp)
    · next pc hpc =>
      split at h
      · exact absurd h (by simp)
      · next pc2 c hstep =>
        simp only [Option.some.injEq] at h
        subst h
        obtain ⟨h1, h2, h3, h4, h5⟩ := statsPc_step_spec _ _ _ _ _ hstep
        refine ⟨h1, fun j => Or.inl (h2 j), ?_, ?_⟩
        · intro j
          rcases h5 j with e | ⟨n, last, index, hc, e⟩
          · exact Or.inl e
          · exact Or.inr ⟨n, last, by simp [Config.addingDuration, hpc, hc], e⟩
        · intro k pc1 hk
          simp only [List.getElem?_set] at hk
          split at hk
          · next htk =>
            subst htk
            split at hk
            · simp only [Option.some.injEq] at hk
              subst hk
              exact ⟨pc, hpc, Or.inr ⟨h2, h3, h4⟩⟩
            · exact absurd hk (by simp)
          · exact ⟨pc1, hk, Or.inl rfl⟩

/-- The five kinds of step of the writer. -/
theorem writer_step_cases (w w1 : Writer) (c c1 : Calculator) (now : Int)
    (h : w.step c now = some (w1, c1)) :
    (w.current = none ∧ w1.remaining = w.remaining ∧ c1 = c ∧
      ∃ i n, w1.current = some (i, TimeSlicePc.swap n)) ∨
    (c.last ≠ 0 ∧ w1.remaining = w.remaining ∧ c1.entries = c.entries ∧
      ∃ i n, w.current = some (i, TimeSlicePc.swap n)) ∨
    (c.last = 0 ∧ w1.remaining + 1 = w.remaining ∧ c1.entries = c.entries ∧
      ∃ i n, w.current = some (i, TimeSlicePc.swap n)) ∨
    (w1.remaining = w.remaining ∧ c1.last = c.last ∧
      (∀ j, callCountAt c1.entries j = callCountAt c.entries j) ∧
      ∃ i n last, w.current = some (i, TimeSlicePc.addDuration n last)) ∨
    (w1.remaining + 1 = w.remaining ∧ c1.last = c.last ∧
      (∀ j, callCountAt c1.entries j = callCountAt c.entries j ∨
        callCountAt c1.entries j = addInt64 (callCountAt c.entries j) 1) ∧
      ∃ i li, w.current = some (i, TimeSlicePc.addCallCount li)) := by
  unfold Writer.step at h
  split at h
  · next hcur =>
    split at h
    · exact absurd h (by simp)
    · next index rest hp =>
      simp only [Option.some.injEq, Prod.mk.injEq] at h
      obtain ⟨h1, h2⟩ := h
      subst h1 h2
      exact Or.inl ⟨hcur, by simp [Writer.remaining, hcur, hp], rfl, _, _, rfl⟩
  · next index n hcur =>
    dsimp only at h
    split at h
    · next hl =>
      simp only [Option.some.injEq, Prod.mk.injEq] at h
      obtain ⟨h1, h2⟩ := h
      subst h1 h2
      exact Or.inr (Or.inl ⟨hl, by simp [Writer.remaining, hcur], rfl, _, _, hcur⟩)
    · next hl =>
      simp only [Option.some.injEq, Prod.mk.injEq] at h
      obtain ⟨h1, h2⟩ := h
      subst h1 h2
      exact Or.inr (Or.inr (Or.inl ⟨by simpa using hl, by simp [Writer.remaining, hcur], rfl,
        _, _, hcur⟩))
  · next index n last hcur =>
    dsimp only at h
    split at h
    · exact absurd h (by simp)
    · next es1 hes =>
      simp only [Option.some.injEq, Prod.mk.injEq] at h
      obtain ⟨h1, h2⟩ := h
      obtain ⟨hi, hes1⟩ := addDuration_some _ _ _ _ hes
      subst h1 h2
      refine Or.inr (Or.inr (Or.inr (Or.inl
        ⟨by simp [Writer.remaining, hcur], rfl, ?_, _, _, _, hcur⟩)))
      intro j
      show callCountAt es1 j = _
      rw [hes1]
      exact callCountAt_modify_same _ _ _ _ hi (fun _ => rfl)
  · next index lastIndex hcur =>
    split at h
    · exact absurd h (by simp)
    · next es2 hes =>
      simp only [Option.some.injEq, Prod.mk.injEq] at h
      obtain ⟨h1, h2⟩ := h
      obtain ⟨hi, hes2⟩ := addCallCount_some _ _ _ _ hes
      subst h1 h2
      refine Or.inr (Or.inr (Or.inr (Or.inr
        ⟨by simp [Writer.remaining, hcur], rfl, ?_, _, _, hcur⟩)))
      intro j
      show callCountAt es2 j = _ ∨ callCountAt es2 j = _
      rw [hes2, callCountAt_modify_succ _ _ _ _ hi (fun _ => rfl)]
      split
      · exact Or.inr rfl
      · exact Or.inl rfl

theorem afterRecord_ne_cas (c : Calculator) (result : List Entry) (n last : Nat) :
    StatsPc.afterRecord c result ≠ StatsPc.cas n last := by
  unfold StatsPc.afterRecord
  split <;> simp

/-- What a step of a `Stats` goroutine does to the state word: it leaves it, or it replaces
the word it holds; and the word it holds at its compare-and-swap is not 0. -/
theorem statsPc_step_word (pc pc1 : StatsPc) (c c1 : Calculator) (now : Int)
    (h : pc.step c now = some (pc1, c1)) :
    (c1.last = c.last ∨ ∃ n last, pc = StatsPc.cas n last ∧ c.last = last) ∧
    (∀ n last, pc1 = StatsPc.cas n last → last ≠ 0) := by
  cases pc with
  | readClock =>
    simp only [StatsPc.step, Option.some.injEq, Prod.mk.injEq] at h
    obtain ⟨h1, h2⟩ := h
    subst h1 h2
    exact ⟨Or.inl rfl, fun _ _ e => absurd e (by simp)⟩
  | load n =>
    simp only [StatsPc.step] at h
    split at h
    · simp only [Option.some.injEq, Prod.mk.injEq] at h
      obtain ⟨h1, h2⟩ := h
      subst h1 h2
      exact ⟨Or.inl rfl, fun _ _ e => absurd e (afterRecord_ne_cas _ _ _ _)⟩
    · next hl =>
      simp only [Option.some.injEq, Prod.mk.injEq] at h
      obtain ⟨h1, h2⟩ := h
      subst h1 h2
      refine ⟨Or.inl rfl, fun n1 last e => ?_⟩
      injection e with _ e2
      rw [← e2]; exact hl
  | cas n last =>
    simp only [StatsPc.step] at h
    split at h
    · next hl =>
      simp only [Option.some.injEq, Prod.mk.injEq] at h
      obtain ⟨h1, h2⟩ := h
      subst h1 h2
      exact ⟨Or.inr ⟨n, last, rfl, hl⟩, fun _ _ e => absurd e (by simp)⟩
    · simp only [Option.some.injEq, Prod.mk.injEq] at h
      obtain ⟨h1, h2⟩ := h
      subst h1 h2
      exact ⟨Or.inl rfl, fun _ _ e => absurd e (by simp)⟩
  | addDuration n last index =>
    simp only [StatsPc.step] at h
    split at h
    · exact absurd h (by simp)
    · simp only [Option.some.injEq, Prod.mk.injEq] at h
      obtain ⟨h1, h2⟩ := h
      subst h1 h2
      exact ⟨Or.inl rfl, fun _ _ e => absurd e (afterRecord_ne_cas _ _ _ _)⟩
  | loadDuration result =>
    simp only [StatsPc.step] at h
    split at h
    · exact absurd h (by simp)
    · simp only [Option.some.injEq, Prod.mk.injEq] at h
      obtain ⟨h1, h2⟩ := h
      subst h1 h2
      exact ⟨Or.inl rfl, fun _ _ e => absurd e (by simp)⟩
  | loadCallCount result d =>
    simp only [StatsPc.step] at h
    split at h
    · exact absurd h (by simp)
    · simp only [Option.some.injEq, Prod.mk.injEq] at h
      obtain ⟨h1, h2⟩ := h
      subst h1 h2
      exact ⟨Or.inl rfl, fun _ _ e => absurd e (afterRecord_ne_cas _ _ _ _)⟩
  | returned result =>
    simp [StatsPc.step] at h

/-- One step keeps `Config.Counted` and decreases no stored call count, when the writer makes
at most `2^63` calls. -/
theorem config_step_counted (cfg cfg1 : Config) (tid : Nat) (now : Int) (total : Nat)
    (hC : cfg.Counted total) (h : cfg.step tid now = some cfg1) (ht : total ≤ 2 ^ 63) :
    cfg1.Counted total ∧
      ∀ j, callCountAt cfg.shared.entries j ≤ callCountAt cfg1.shared.entries j := by
  obtain ⟨hlen, hrem, hcc, hzero, hrd⟩ := hC
  obtain ⟨h1, _, _, h4⟩ := config_step_spec cfg cfg1 tid now h
  have key : cfg1.writer.remaining ≤ total ∧
      (∀ j, callCountAt cfg.shared.entries j ≤ callCountAt cfg1.shared.entries j) ∧
      (∀ j, callCountAt cfg1.shared.entries j ≤
        ((total - cfg1.writer.remaining - 1 : Nat) : Int)) ∧
      (total - cfg1.writer.remaining = 0 →
        cfg1.shared.last = 0 ∧
          (cfg1.writer.current = none ∨
            ∃ i n, cfg1.writer.current = some (i, TimeSlicePc.swap n))) ∧
      (∀ (k : Nat) (pc : StatsPc), cfg1.readers[k]? = some pc →
        ∀ n last, pc = StatsPc.cas n last → last ≠ 0) := by
    cases tid with
    | zero =>
      simp only [Config.step] at h
      split at h
      · exact absurd h (by simp)
      · next w c hw =>
        simp only [Option.some.injEq] at h
        subst h
        have hrd1 : ∀ (k : Nat) (pc : StatsPc), cfg.readers[k]? = some pc →
            ∀ n last, pc = StatsPc.cas n last → last ≠ 0 := fun k pc hk => (hrd k pc hk).1
        rcases writer_step_cases _ _ _ _ _ hw with
          ⟨_, hr, hc, i, n, hw1⟩ | ⟨hl, hr, hc, i, n, hw0⟩ | ⟨hl, hr, hc, i, n, hw0⟩ |
          ⟨hr, hl, hsame, i, n, last, hw0⟩ | ⟨hr, hl, hstep, i, li, hw0⟩
        · subst hc
          refine ⟨by show w.remaining ≤ total; omega, fun _ => le_refl _, ?_, ?_, hrd1⟩
          · intro j
            show _ ≤ ((total - w.remaining - 1 : Nat) : Int)
            rw [hr]; exact (hcc j).2
          · intro hz
            show _ ∧ (w.current = none ∨ _)
            exact ⟨(hzero (by rw [← hr]; exact hz)).1, Or.inr ⟨i, n, hw1⟩⟩
        · refine ⟨by show w.remaining ≤ total; omega, ?_, ?_, ?_, hrd1⟩
          · intro j; show _ ≤ callCountAt c.entries j; rw [hc]
          · intro j
            show callCountAt c.entries j ≤ ((total - w.remaining - 1 : Nat) : Int)
            rw [hc, hr]; exact (hcc j).2
          · intro hz
            exact absurd (hzero (by rw [← hr]; exact hz)).1 hl
        · refine ⟨by show w.remaining ≤ total; omega, ?_, ?_, ?_, hrd1⟩
          · intro j; show _ ≤ callCountAt c.entries j; rw [hc]
          · intro j
            show callCountAt c.entries j ≤ ((total - w.remaining - 1 : Nat) : Int)
            rw [hc]
            have := (hcc j).2
            omega
          · intro hz
            have hz1 : total - w.remaining = 0 := hz
            omega
        · have hnz : total - cfg.writer.remaining ≠ 0 := by
            intro hz
            rcases (hzero hz).2 with e | ⟨_, _, e⟩
            · rw [hw0] at e; exact absurd e (by simp)
            · rw [hw0] at e; exact absurd e (by simp)
          refine ⟨by show w.remaining ≤ total; omega, ?_, ?_, ?_, hrd1⟩
          · intro j; show _ ≤ callCountAt c.entries j; rw [hsame j]
          · intro j
            show callCountAt c.entries j ≤ ((total - w.remaining - 1 : Nat) : Int)
            rw [hsame j, hr]; exact (hcc j).2
          · intro hz
            have hz1 : total - w.remaining = 0 := hz
            omega
        · have hnz : total - cfg.writer.remaining ≠ 0 := by
            intro hz
            rcases (hzero hz).2 with e | ⟨_, _, e⟩
            · rw [hw0] at e; exact absurd e (by simp)
            · rw [hw0] at e; exact absurd e (by simp)
          have hadd : ∀ j, addInt64 (callCountAt cfg.shared.entries j) 1 =
              callCountAt cfg.shared.entries j + 1 := by
            intro j
            have := hcc j
            exact addInt64_of_range _ _ (by unfold IsInt64; omega)
          refine ⟨by show w.remaining ≤ total; omega, ?_, ?_, ?_, hrd1⟩
          · intro j
            show _ ≤ callCountAt c.entries j
            rcases hstep j with e | e
            · rw [e]
            · rw [e, hadd j]; omega
          · intro j
            show callCountAt c.entries j ≤ ((total - w.remaining - 1 : Nat) : Int)
            have := hcc j
            rcases hstep j with e | e
            · rw [e]; omega
            · rw [e, hadd j]; omega
          · intro hz
            have hz1 : total - w.remaining = 0 := hz
            omega
    | succ t =>
      simp only [Config.step] at h
      split at h
      · exact absurd h (by simp)
      · next pc hpc =>
        split at h
        · exact absurd h (by simp)
        · next pc2 c hstep =>
          simp only [Option.some.injEq] at h
          subst h
          obtain ⟨_, hsame, _, _, _⟩ := statsPc_step_spec _ _ _ _ _ hstep
          obtain ⟨hword, hcas⟩ := statsPc_step_word _ _ _ _ _ hstep
          refine ⟨hrem, ?_, ?_, ?_, ?_⟩
          · intro j; show _ ≤ callCountAt c.entries j; rw [hsame j]
          · intro j
            show callCountAt c.entries j ≤ _
            rw [hsame j]; exact (hcc j).2
          · intro hz
            obtain ⟨hl0, hcur⟩ := hzero hz
            refine ⟨?_, hcur⟩
            show c.last = 0
            rcases hword with e | ⟨n, last, e, el⟩
            · rw [e]; exact hl0
            · exact absurd (el.symm.trans hl0) ((hrd t pc hpc).1 n last e)
          · intro k pc1 hk
            simp only [List.getElem?_set] at hk
            split at hk
            · split at hk
              · simp only [Option.some.injEq] at hk
                subst hk
                exact hcas
              · exact absurd hk (by simp)
            · exact (hrd k pc1 hk).1
  obtain ⟨hrem1, hmono, hcc1, hzero1, hcas1⟩ := key
  refine ⟨⟨by rw [h1, hlen], hrem1, fun j => ⟨le_trans (hcc j).1 (hmono j), hcc1 j⟩, hzero1,
    ?_⟩, hmono⟩
  intro k pc1 hk
  refine ⟨hcas1 k pc1 hk, ?_⟩
  obtain ⟨pc, hpc, hrel⟩ := h4 k pc1 hk
  obtain ⟨_, hu, hr⟩ := hrd k pc hpc
  rcases hrel with e | ⟨hsame, hrec, hret⟩
  · subst e
    exact ⟨fun i => le_trans (hu i) (hmono i), hr⟩
  · refine ⟨?_, fun r e => by rw [← hlen]; exact hret r e⟩
    intro i
    rw [hsame i, callCountAt_eq_getD]
    rcases hrec with e | ⟨hl, e⟩
    · rw [e, ← callCountAt_eq_getD]; exact hu i
    · rw [e, getD_append_singleton]
      simp only [List.length_map]
      split
      · rw [← callCountAt_eq_getD]; exact hu i
      · split
        · next hi => rw [hi]
        · exact (hcc i).1

/-- A step that decreases no stored call count keeps `Config.Since`. -/
theorem config_step_since_mono (start cfg cfg1 : Config) (b tid : Nat) (now : Int)
    (hS : Config.Since start cfg b)
    (hmono : ∀ j, callCountAt cfg.shared.entries j ≤ callCountAt cfg1.shared.entries j)
    (h : cfg.step tid now = some cfg1) :
    Config.Since start cfg1 b := by
  obtain ⟨hS1, hS2⟩ := hS
  obtain ⟨_, _, _, h4⟩ := config_step_spec cfg cfg1 tid now h
  refine ⟨fun i => le_trans (hS1 i) (hmono i), ?_⟩
  intro pc1 hk i hi
  obtain ⟨pc, hpc, hrel⟩ := h4 b pc1 hk
  rcases hrel with e | ⟨_, hrec, _⟩
  · subst e
    exact hS2 pc1 hpc i hi
  · have hlen1 : pc1.records.length = (pc1.records.map Entry.CallCount).length := by simp
    rw [callCountAt_eq_getD pc1.records]
    rcases hrec with e | ⟨_, e⟩
    · rw [e, ← callCountAt_eq_getD pc.records]
      refine hS2 pc hpc i ?_
      rw [hlen1, e] at hi
      simpa using hi
    · rw [hlen1, e] at hi
      simp only [List.length_append, List.length_map, List.length_singleton] at hi
      rw [e, getD_append_singleton]
      simp only [List.length_map]
      split
      · next hlt => rw [← callCountAt_eq_getD pc.records]; exact hS2 pc hpc i hlt
      · have hi2 : i = pc.records.length := by omega
        rw [if_pos hi2, hi2]
        exact hS1 _

/-- An execution keeps `Config.Counted` and `Config.Since`. -/
theorem config_exec_counted (sched : List (Nat × Int)) (start cfg cfg1 : Config) (b total : Nat)
    (hS : Config.Since start cfg b) (hC : cfg.Counted total)
    (h : cfg.exec sched = some cfg1) (ht : total ≤ 2 ^ 63) :
    cfg1.Counted total ∧ Config.Since start cfg1 b := by
  induction sched generalizing cfg with
  | nil =>
    simp only [Config.exec, Option.some.injEq] at h
    subst h
    exact ⟨hC, hS⟩
  | cons x rest ih =>
    obtain ⟨tid, now⟩ := x
    simp only [Config.exec] at h
    cases hst : cfg.step tid now with
    | none => rw [hst] at h; exact absurd h (by simp)
    | some cfg2 =>
      rw [hst, Option.some_bind] at h
      obtain ⟨hC2, hmono⟩ := config_step_counted cfg cfg2 tid now total hC hst ht
      exact ih cfg2 (config_step_since_mono start cfg cfg2 b tid now hS hmono hst) hC2 h

theorem config_init_counted (indices : List Int) (readers : Nat) :
    (Config.init indices readers).Counted indices.length := by
  have hcc : ∀ j, callCountAt (Config.init indices readers).shared.entries j = 0 := fun j => by
    rw [show (Config.init indices readers).shared = NewCalculator from rfl, callCountAt_new]
  refine ⟨rfl, le_refl _, fun j => ?_, fun _ => ⟨rfl, Or.inl rfl⟩, ?_⟩
  · rw [hcc j]
    exact ⟨le_refl _, by omega⟩
  · intro k pc hk
    have hpc : pc = StatsPc.readClock := by
      simp only [Config.init, List.getElem?_replicate] at hk
      split at hk
      · exact (Option.some.inj hk).symm
      · exact absurd hk (by simp)
    subst hpc
    refine ⟨fun _ _ e => absurd e (by simp), fun i => ?_, fun r e => absurd e (by simp)⟩
    rw [hcc i]
    exact le_of_eq rfl

theorem config_since_self (cfg : Config) (b : Nat)
    (hb : cfg.readers[b]? = some StatsPc.readClock) : Config.Since cfg cfg b := by
  refine ⟨fun _ => le_refl _, ?_⟩
  intro pc hpc i hi
  rw [hb] at hpc
  have := (Option.some.inj hpc).symm
  subst this
  simp [StatsPc.records] at hi

theorem config_since_init (cfg : Config) :
    Config.Since cfg cfg cfg.readers.length := by
  refine ⟨fun _ => le_refl _, ?_⟩
  intro pc hpc
  rw [List.getElem?_eq_none (le_refl _)] at hpc
  exact absurd hpc (by simp)

theorem config_exec_append (cfg : Config) (s1 s2 : List (Nat × Int)) :
    cfg.exec (s1 ++ s2) = (cfg.exec s1).bind fun cfg1 => cfg1.exec s2 := by
  induction s1 generalizing cfg with
  | nil => simp [Config.exec]
  | cons x rest ih =>
    obtain ⟨tid, now⟩ := x
    simp only [List.cons_append, Config.exec]
    cases cfg.step tid now with
    | none => simp
    | some cfg1 => simp [ih]

/-! ## The interleaved steps of one call, run alone, do what the call does -/

set_option maxRecDepth 100000 in
/-- The four steps of `TimeSlice(Index2)` at clock reading 500, taken with no other goroutine
in between, leave the calculator that `TimeSlice` leaves. -/
theorem writer_alone_agrees :
    (({ shared := sampleCalculator, writer := { current := none, pending := [2] },
        readers := [] } : Config).exec (List.replicate 4 (0, 500))).map (fun cfg => cfg.shared) =
      TimeSlice sampleCalculator 2 500 := by decide

set_option maxRecDepth 100000 in
/-- The twenty steps of `Stats` at clock reading 400, taken with no other goroutine in
between, leave the calculator and return the durations that `Stats` does. -/
theorem reader_alone_agrees :
    (({ shared := sampleCalculator, writer := { current := none, pending := [] },
        readers := [StatsPc.readClock] } : Config).exec (List.replicate 20 (1, 400))).map
        (fun cfg => (cfg.shared, cfg.readers.map fun pc => (pc.records.map Entry.Duration,
          pc.records.map Entry.CallCount))) =
      (Stats sampleCalculator 400).map
        (fun p => (p.2, [(p.1.map Entry.Duration, p.1.map Entry.CallCount)])) := by decide

theorem TimeSlice_last (c c1 : Calculator) (index now : Int)
    (h : TimeSlice c index now = some c1) : c1.last = packIndex (toUint64 now) index := by
  unfold TimeSlice at h
  dsimp only at h
  split at h
  · split at h
    · exact absurd h (by simp)
    · split at h
      · exact absurd h (by simp)
      · simp only [Option.some.injEq] at h
        subst h
        rfl
  · simp only [Option.some.injEq] at h
    subst h
    rfl

/-- The two steps of the writer for a `TimeSlice` call on an unset state word, taken with no
other goroutine in between, leave the calculator that `TimeSlice` leaves. -/
theorem exec_TimeSlice_unset (c c1 : Calculator) (index now : Int) (rest : List Int)
    (readers : List StatsPc) (hl : c.last = 0) (h : TimeSlice c index now = some c1) :
    ({ shared := c, writer := { current := none, pending := index :: rest },
        readers := readers } : Config).exec (List.replicate 2 (0, now)) =
      some { shared := c1, writer := { current := none, pending := rest }, readers := readers } := by
  rw [TimeSlice_unset c index now hl] at h
  simp only [Option.some.injEq] at h
  subst h
  simp [List.replicate, Config.exec, Config.step, Writer.step, hl]

/-- The four steps of the writer for a `TimeSlice` call on a set state word, taken with no
other goroutine in between, leave the calculator that `TimeSlice` leaves. -/
theorem exec_TimeSlice_active (c c1 : Calculator) (index now : Int) (rest : List Int)
    (readers : List StatsPc) (hl : c.last ≠ 0) (h : TimeSlice c index now = some c1) :
    ({ shared := c, writer := { current := none, pending := index :: rest },
        readers := readers } : Config).exec (List.replicate 4 (0, now)) =
      some { shared := c1, writer := { current := none, pending := rest }, readers := readers } := by
  unfold TimeSlice at h
  simp only [ne_eq, hl, not_false_eq_true, if_true] at h
  cases h1 : addDuration c.entries (decodeIndex c.last)
      (toInt64 (subUint64 (toUint64 now) (decodeTimestamp c.last))) with
  | none => simp [h1] at h
  | some es1 =>
    simp only [h1] at h
    cases h2 : addCallCount es1 (decodeIndex c.last) 1 with
    | none => simp [h2] at h
    | some es2 =>
      simp only [h2, Option.some.injEq] at h
      subst h
      simp [List.replicate, Config.exec, Config.step, Writer.step, hl, h1, h2]

/-- The steps of the writer for a sequence of `TimeSlice` calls on a set state word, all at
the same clock reading and with no other goroutine in between, leave the calculator that
the calls leave when made one after the other. -/
theorem exec_writer_alone (indices rest : List Int) (t : Int) (c c1 : Calculator)
    (readers : List StatsPc) (h0 : 0 < t) (h1 : t < 2 ^ 61) (hl : c.last ≠ 0)
    (hrun : run c (indices.map fun i => Call.timeSlice i t) = some c1) :
    ({ shared := c, writer := { current := none, pending := indices ++ rest },
        readers := readers } : Config).exec (List.replicate (4 * indices.length) (0, t)) =
      some { shared := c1, writer := { current := none, pending := rest }, readers := readers } := by
  induction indices generalizing c with
  | nil =>
    simp only [List.map_nil, run, Option.some.injEq] at hrun
    subst hrun
    rfl
  | cons i is ih =>
    simp only [List.map_cons, run] at hrun
    cases hs : step c (Call.timeSlice i t) with
    | none => rw [hs] at hrun; exact absurd hrun (by simp)
    | some c2 =>
      rw [hs, Option.some_bind] at hrun
      have hts : TimeSlice c i t = some c2 := hs
      have hl2 : c2.last ≠ 0 := by
        rw [TimeSlice_last c c2 i t hts, packIndex_eq t i (by omega) h1]
        omega
      rw [show 4 * (i :: is).length = 4 + 4 * is.length by simp only [List.length_cons]; omega,
        List.replicate_add, config_exec_append, List.cons_append,
        exec_TimeSlice_active c c2 i t (is ++ rest) readers hl hts, Option.some_bind]
      exact ih c2 hl2 hrun

theorem timeSliceCalls_const (k : Nat) :
    timeSliceCalls (fun _ => 0) (fun _ => 1) k =
      Call.timeSlice 0 1 :: (List.replicate k (0 : Int)).map fun i => Call.timeSlice i 1 := by
  induction k with
  | zero => rfl
  | succ k ih =>
    rw [timeSliceCalls_succ, ih, List.replicate_succ', List.map_append]
    rfl

/-- The writer alone, making `k + 1` calls `TimeSlice(Index0)` at clock reading 1 out of a
longer list of calls, reaches the calculator these calls leave. -/
theorem exec_writer_from_init (k : Nat) (rest : List Int) (c1 : Calculator)
    (hrun : run NewCalculator (timeSliceCalls (fun _ => 0) (fun _ => 1) k) = some c1) :
    (Config.init (0 :: (List.replicate k 0 ++ rest)) 0).exec
        (List.replicate (2 + 4 * k) (0, 1)) =
      some { shared := c1, writer := { current := none, pending := rest }, readers := [] } := by
  rw [timeSliceCalls_const] at hrun
  simp only [run] at hrun
  cases hs : step NewCalculator (Call.timeSlice 0 1) with
  | none => rw [hs] at hrun; exact absurd hrun (by simp)
  | some c0 =>
    rw [hs, Option.some_bind] at hrun
    have hts : TimeSlice NewCalculator 0 1 = some c0 := hs
    have hl0 : c0.last ≠ 0 := by
      rw [TimeSlice_last _ c0 0 1 hts, packIndex_eq 1 0 (by omega) (by omega)]
      omega
    have h := exec_writer_alone (List.replicate k 0) rest 1 c0 c1 [] (by omega) (by omega) hl0 hrun
    rw [List.length_replicate] at h
    rw [List.replicate_add, config_exec_append]
    rw [show Config.init (0 :: (List.replicate k 0 ++ rest)) 0 =
        Config.mk NewCalculator (Writer.mk none (0 :: (List.replicate k 0 ++ rest))) [] from rfl,
      exec_TimeSlice_unset NewCalculator c0 0 1 _ [] rfl hts, Option.some_bind]
    exact h

/-- The stored call count of bucket 0 after the writer alone has made `k + 1` calls
`TimeSlice(Index0)` at clock reading 1: `k` as an `int64`. -/
theorem writer_alone_callCount (k : Nat) (rest : List Int) :
    ((Config.init (0 :: (List.replicate k 0 ++ rest)) 0).exec
        (List.replicate (2 + 4 * k) (0, 1))).map
      (fun cfg => callCountAt cfg.shared.entries 0) = some (toInt64 k) := by
  obtain ⟨c, hrun, _, _, _, hj⟩ :=
    run_timeSliceCalls (fun _ => 0) (fun _ => 1) k
      (fun _ _ => by dsimp only; omega) (by dsimp only; omega)
      (fun _ _ => by dsimp only; omega) (by dsimp only; omega)
  rw [exec_writer_from_init k rest c hrun, Option.map_some']
  show some (callCountAt c.entries 0) = _
  rw [(hj 0).1, sourceCount_const]

/-! ## Lemmas on well-formed calculators, the packed word and the returned records -/

theorem shlUint64_eq (b : Nat) : shlUint64 b 61 = 2 ^ 61 * (b % 8) := by
  unfold shlUint64
  omega

theorem shlUint64_lt (b : Nat) : shlUint64 b 61 < 2 ^ 64 := by
  unfold shlUint64
  omega

theorem toUint64_lt_two_pow (x : Int) : toUint64 x < 2 ^ 64 := by
  unfold toUint64; omega

theorem packIndex_lt (n : Nat) (index : Int) (hn : n < 2 ^ 64) :
    packIndex n index < 2 ^ 64 :=
  Nat.or_lt_two_pow hn (shlUint64_lt _)

theorem packIndex_emod (n : Nat) (index : Int) :
    packIndex n index = packIndex n (index % 8) := by
  unfold packIndex
  rw [shlUint64_eq, shlUint64_eq]
  have : toUint64 index % 8 = toUint64 (index % 8) % 8 := by
    unfold toUint64; omega
  rw [this]

theorem packIndex_zero (n : Nat) : packIndex n 0 = n := by
  unfold packIndex
  rw [shlUint64_eq]
  have : toUint64 0 % 8 = 0 := by decide
  rw [this]
  simp

theorem packIndex_small (n : Nat) (index : Int) (hn : n < 2 ^ 61) :
    packIndex n index = n + (toUint64 index % 8) * 2 ^ 61 := by
  unfold packIndex
  exact or_shlUint64 n _ hn

theorem mem_modify (l : List Entry) (f : Entry → Entry) (b : Nat) (e : Entry)
    (h : e ∈ l.modify f b) : e ∈ l ∨ ∃ e0, e0 ∈ l ∧ e = f e0 := by
  obtain ⟨m, hm⟩ := List.mem_iff_getElem?.mp h
  rw [List.getElem?_modify] at hm
  cases h0 : l[m]? with
  | none => rw [h0] at hm; exact absurd hm (by simp)
  | some e0 =>
    rw [h0] at hm
    simp only [Option.map_eq_map, Option.map_some', Option.some.injEq] at hm
    by_cases hb : b = m
    · rw [if_pos hb] at hm
      exact Or.inr ⟨e0, List.getElem?_mem h0, hm.symm⟩
    · rw [if_neg hb] at hm
      exact Or.inl (hm ▸ List.getElem?_mem h0)

theorem wellFormed_modify (c : Calculator) (f : Entry → Entry) (b w : Nat)
    (hwf : WellFormed c) (hw : w < 2 ^ 64)
    (hf : ∀ e, IsInt64 e.Duration ∧ IsInt64 e.CallCount →
      IsInt64 (f e).Duration ∧ IsInt64 (f e).CallCount) :
    WellFormed { entries := c.entries.modify f b, last := w } := by
  refine ⟨by simp [hwf.1], hw, ?_⟩
  intro e he
  rcases mem_modify _ _ _ _ he with h | ⟨e0, h0, h⟩
  · exact hwf.2.2 e h
  · rw [h]; exact hf e0 (hwf.2.2 e0 h0)

/-- `TimeSlice` returns on every well-formed calculator, for every index and clock reading,
and leaves a well-formed calculator with the packed state word. -/
theorem TimeSlice_wellFormed (c : Calculator) (index now : Int) (hwf : WellFormed c) :
    ∃ c1, TimeSlice c index now = some c1 ∧ WellFormed c1 ∧
      c1.last = packIndex (toUint64 now) index := by
  have hw := packIndex_lt (toUint64 now) index (toUint64_lt_two_pow now)
  by_cases h : c.last = 0
  · exact ⟨_, TimeSlice_unset c index now h, ⟨hwf.1, hw, hwf.2.2⟩, rfl⟩
  · have hb : decodeIndex c.last < c.entries.length := by
      have := decodeIndex_lt _ hwf.2.1
      have := hwf.1
      omega
    exact ⟨_, TimeSlice_active c index now h hb,
      wellFormed_modify c _ _ _ hwf hw
        (fun e _ => ⟨isInt64_addInt64 _ _, isInt64_addInt64 _ _⟩), rfl⟩

/-- The first loop of `Stats` returns on every well-formed calculator, for every clock
reading, and leaves a well-formed calculator. -/
theorem closeOut_wellFormed (c : Calculator) (now : Int) (hwf : WellFormed c) :
    ∃ c1, closeOut c (toUint64 now) = some c1 ∧ WellFormed c1 := by
  by_cases h : c.last = 0
  · exact ⟨c, closeOut_unset c _ h, hwf⟩
  · have hb : decodeIndex c.last < c.entries.length := by
      have := decodeIndex_lt _ hwf.2.1
      have := hwf.1
      omega
    exact ⟨_, closeOut_active c _ h hb,
      wellFormed_modify c _ _ _ hwf
        (Nat.or_lt_two_pow (toUint64_lt_two_pow now) (shlUint64_lt _))
        (fun e he => ⟨isInt64_addInt64 _ _, he.2⟩)⟩

theorem getElem?_snapshot (es : List Entry) (i : Nat) :
    (snapshot es)[i]? = es[i]?.map fun e =>
      { Duration := e.Duration, CallCount := e.CallCount,
        Percentage := F64.divInt e.Duration (totalOf es), timestamp := 0 } := by
  unfold snapshot
  simp only [List.getElem?_map, totalOf_snapshot_aux]
  cases es[i]? <;> rfl

theorem percentageAt_snapshot (es : List Entry) (j : Nat) (hj : j < es.length) :
    percentageAt (snapshot es) j = F64.divInt (durationAt es j) (totalOf es) := by
  unfold percentageAt durationAt
  rw [List.getD_eq_getElem?_getD, List.getD_eq_getElem?_getD, getElem?_snapshot,
    List.getElem?_eq_getElem hj]
  rfl

theorem rangeCalls_append (pre : List Call) (x : Call) (h : RangeCalls (pre ++ [x])) :
    RangeCalls pre ∧ x.IndexOk ∧ 0 < x.clock ∧ x.clock < 2 ^ 61 :=
  ⟨fun y hy => h y (by simp [hy]), h x (by simp)⟩

theorem addInt64_one_ne (x : Int) (h : IsInt64 x) : addInt64 x 1 ≠ x := by
  unfold IsInt64 at h
  unfold addInt64 toInt64 toUint64
  omega

theorem wordInvariant_new : WordInvariant [] NewCalculator := by
  refine ⟨rfl, by decide, ?_, ?_⟩
  · intro j
    rw [callCountAt_new]
    exact ⟨by decide, by decide⟩
  · exact ⟨fun _ => rfl, fun _ => rfl⟩

/-- One call keeps `WordInvariant`; a `TimeSlice` call leaves the entries as they are when
it is the first one, and otherwise adds one to the call count of the decoded bucket. -/
theorem step_wordInvariant (pre : List Call) (x : Call) (c : Calculator)
    (hok : x.IndexOk) (h0 : 0 < x.clock) (h1 : x.clock < 2 ^ 61)
    (hinv : WordInvariant pre c) :
    ∃ c1, step c x = some c1 ∧ WordInvariant (pre ++ [x]) c1 ∧
      (x.isTimeSlice = true →
        (countTimeSlice pre = 0 → c1.entries = c.entries) ∧
        (countTimeSlice pre ≠ 0 →
          callCountAt c1.entries (decodeIndex c.last) =
            addInt64 (callCountAt c.entries (decodeIndex c.last)) 1 ∧
          callCountAt c1.entries (decodeIndex c.last) ≠
            callCountAt c.entries (decodeIndex c.last))) := by
  obtain ⟨hlen, hlast, hcc, hzero⟩ := hinv
  cases x with
  | timeSlice index now =>
    simp only [Call.clock] at h0 h1
    have hcnt : countTimeSlice (pre ++ [Call.timeSlice index now]) = countTimeSlice pre + 1 := by
      rw [countTimeSlice_append]; rfl
    by_cases hl : c.last = 0
    · refine ⟨_, TimeSlice_unset_small c index now hl (by omega) h1, ⟨hlen, ?_, hcc, ?_⟩, ?_⟩
      · show now.toNat + (toUint64 index % 8) * 2 ^ 61 < 2 ^ 64
        omega
      · show now.toNat + (toUint64 index % 8) * 2 ^ 61 = 0 ↔ _
        rw [hcnt]
        omega
      · intro _
        exact ⟨fun _ => rfl, fun hne => absurd (hzero.mp hl) hne⟩
    · obtain ⟨c1, hts, hlen1, hlast1, hcc1, _, _⟩ :=
        TimeSlice_active_result c index now hlen hlast hl (by omega) h1
      refine ⟨c1, hts, ⟨hlen1, ?_, ?_, ?_⟩, ?_⟩
      · rw [hlast1]; omega
      · intro j
        rw [hcc1 j]
        split
        · exact isInt64_addInt64 _ _
        · exact hcc j
      · rw [hlast1, hcnt]; omega
      · intro _
        refine ⟨fun hz => absurd (hzero.mpr hz) hl, fun _ => ?_⟩
        have e := hcc1 (decodeIndex c.last)
        rw [if_pos (decodeIndex_eq c.last)] at e
        exact ⟨e, by rw [e]; exact addInt64_one_ne _ (hcc _)⟩
  | stats now =>
    simp only [Call.clock] at h0 h1
    have hcnt : countTimeSlice (pre ++ [Call.stats now]) = countTimeSlice pre := by
      rw [countTimeSlice_append]; rfl
    by_cases hl : c.last = 0
    · refine ⟨c, ?_, ⟨hlen, hlast, hcc, by rw [hcnt]; exact hzero⟩, ?_⟩
      · show (Stats c now).map Prod.snd = some c
        rw [Stats_of_closeOut c now c (closeOut_unset c _ hl)]; rfl
      · intro h; exact absurd h (by simp [Call.isTimeSlice])
    · obtain ⟨r, c1, hst, _, hlen1, hlast1, hcc1, _, _⟩ :=
        Stats_active_result c now hlen hlast hl (by omega) h1
      refine ⟨c1, ?_, ⟨hlen1, ?_, ?_, ?_⟩, ?_⟩
      · show (Stats c now).map Prod.snd = some c1
        rw [hst]; rfl
      · rw [hlast1]; omega
      · intro j; rw [hcc1 j]; exact hcc j
      · rw [hlast1, hcnt]
        have := hzero
        omega
      · intro h; exact absurd h (by simp [Call.isTimeSlice])

theorem run_wordInvariant (calls : List Call) (hr : RangeCalls calls) :
    ∃ c, run NewCalculator calls = some c ∧ WordInvariant calls c := by
  induction calls using List.reverseRecOn with
  | nil => exact ⟨NewCalculator, rfl, wordInvariant_new⟩
  | append_singleton pre x ih =>
    obtain ⟨hpre, hok, h0, h1⟩ := rangeCalls_append pre x hr
    obtain ⟨c, hrun, hinv⟩ := ih hpre
    obtain ⟨c1, hstep, hinv1, _⟩ := step_wordInvariant pre x c hok h0 h1 hinv
    exact ⟨c1, by rw [run_append, hrun, Option.some_bind, run_singleton, hstep], hinv1⟩

/-! ## The claims -/

/-- Claim C1, amended: for `TimeSlice(b 0), ..., TimeSlice(b k)` on a fresh calculator with
`k < 2^63`, buckets in `[0, 8)` and clock readings `0 < t 0 ≤ ... ≤ t k ≤ ts < 2^61`, the
`Stats` call at `ts` returns for every bucket `j` the call count `#{i < k | b i = j}` and the
duration `Σ {i < k | b i = j} (t (i+1) - t i)`, plus `ts - t k` when `j = b k`. -/
theorem TimeSlice_sequence_then_Stats (b t : Nat → Int) (k : Nat) (ts : Int)
    (hb : ∀ i, i ≤ k → 0 ≤ b i ∧ b i < 8) (h0 : 0 < t 0)
    (hmono : ∀ i, i < k → t i ≤ t (i + 1)) (hts : t k ≤ ts) (hlt : ts < 2 ^ 61)
    (hk : k < 2 ^ 63) :
    ∃ c r c1, run NewCalculator (timeSliceCalls b t k) = some c ∧ Stats c ts = some (r, c1) ∧
      r.length = 8 ∧
      ∀ j, j < 8 →
        callCountAt r j = (sourceCount b k j : Int) ∧
        durationAt r j =
          sourceDuration b t k j + (if (j : Int) = b k then ts - t k else 0) := by
  obtain ⟨c, r, c1, hrun, hst, hlen, hj⟩ := Stats_after_timeSliceCalls b t k ts hb h0 hmono hts hlt
  refine ⟨c, r, c1, hrun, hst, hlen, fun j _ => ?_⟩
  obtain ⟨hc, hd⟩ := hj j
  have := sourceCount_le b k j
  exact ⟨by rw [hc, toInt64_of_lt _ (by omega)], hd⟩

/-- Witness of claim C1 on the scenario of `TestCalculator`. -/
theorem TimeSlice_sequence_then_Stats_witness :
    ∃ c r c1,
      run NewCalculator (timeSliceCalls testBuckets testClock 2) = some c ∧
      Stats c 400000000 = some (r, c1) ∧ r.length = 8 ∧
      ∀ j, j < 8 →
        callCountAt r j = (sourceCount testBuckets 2 j : Int) ∧
        durationAt r j =
          sourceDuration testBuckets testClock 2 j +
            (if (j : Int) = testBuckets 2 then 400000000 - testClock 2 else 0) :=
  TimeSlice_sequence_then_Stats testBuckets testClock 2 400000000
    (by intro i hi; unfold testBuckets; split <;> omega) (by decide)
    (by intro i hi; unfold testClock; omega) (by decide) (by decide) (by decide)

/-- Counterexample to claim C1 as stated: after `2^63 + 1` calls `TimeSlice(Index0)`, all at
clock reading 1, `Stats` returns the call count `-2^63` for bucket 0, while `2^63` completed
intervals have bucket 0 as their source. -/
theorem TimeSlice_sequence_callCount_wraps :
    (∀ i : Nat, i ≤ 2 ^ 63 → (0 : Int) ≤ 0 ∧ (0 : Int) < 8) ∧
    (0 : Int) < 1 ∧ (∀ i : Nat, i < 2 ^ 63 → (1 : Int) ≤ 1) ∧ (1 : Int) < 2 ^ 61 ∧
    ∃ c r c1, run NewCalculator (timeSliceCalls (fun _ => 0) (fun _ => 1) (2 ^ 63)) = some c ∧
      Stats c 1 = some (r, c1) ∧
      callCountAt r 0 = -(2 ^ 63) ∧
      (sourceCount (fun _ => 0) (2 ^ 63) 0 : Int) = 2 ^ 63 := by
  refine ⟨fun _ _ => by omega, by omega, fun _ _ => le_refl _, by omega, ?_⟩
  obtain ⟨c, r, c1, hrun, hst, _, hj⟩ :=
    Stats_after_timeSliceCalls (fun _ => 0) (fun _ => 1) (2 ^ 63) 1
      (fun _ _ => by dsimp only; omega) (by dsimp only; omega) (fun _ _ => by dsimp only; omega)
      (by dsimp only; omega) (by omega)
  refine ⟨c, r, c1, hrun, hst, ?_, ?_⟩
  · rw [(hj 0).1, sourceCount_const]
    unfold toInt64; omega
  · rw [sourceCount_const]; norm_num

/-- Claim C2: after any sequence of `TimeSlice` and `Stats` calls on a fresh calculator, with
indices in `[0, 8)` and non-decreasing clock readings in `(0, 2^61)`, the durations of the
buckets add up to the timestamp stored in the state word minus the clock reading of the first
`TimeSlice` call (to 0, with the state word unset, when there is none), and the stored
timestamp is the clock reading of the most recent call made at or after that first
`TimeSlice`. -/
theorem durations_sum_to_elapsed (calls : List Call) (hv : ValidCalls calls) :
    ∃ c, run NewCalculator calls = some c ∧
      (firstTimeSlice calls = none → sumDuration c.entries = 0 ∧ c.last = 0) ∧
      (∀ t0, firstTimeSlice calls = some t0 →
        sumDuration c.entries = (decodeTimestamp c.last : Int) - t0 ∧
        ∃ x, lastSinceFirstTimeSlice calls = some x ∧
          (decodeTimestamp c.last : Int) = x.clock) := by
  obtain ⟨c, hrun, _, _, _, hnone, hsome⟩ := run_invariant calls hv
  refine ⟨c, hrun, ?_, ?_⟩
  · intro h
    rw [hnone h]
    exact ⟨sumDuration_new, rfl⟩
  · intro t0 h
    obtain ⟨_, _, x, hx, hts, hsum, _⟩ := hsome t0 h
    rw [decodeTimestamp_eq, hts]
    exact ⟨hsum, x, by rw [lastSinceFirstTimeSlice_eq calls t0 h, hx], rfl⟩

/-- Witness of claim C2 on `sampleCalls`. -/
theorem durations_sum_to_elapsed_witness :
    ValidCalls sampleCalls ∧
    ∃ c, run NewCalculator sampleCalls = some c ∧
      (firstTimeSlice sampleCalls = none → sumDuration c.entries = 0 ∧ c.last = 0) ∧
      (∀ t0, firstTimeSlice sampleCalls = some t0 →
        sumDuration c.entries = (decodeTimestamp c.last : Int) - t0 ∧
        ∃ x, lastSinceFirstTimeSlice sampleCalls = some x ∧
          (decodeTimestamp c.last : Int) = x.clock) :=
  ⟨by decide, durations_sum_to_elapsed sampleCalls (by decide)⟩

/-- Claim C3: on every calculator, for every clock reading `0 < n1 < 2^61`, every clock
reading `n2` and every index, `Stats` at `n1` followed by `TimeSlice(index)` at `n2` leaves
exactly the calculator (all entries and the state word) that `TimeSlice(index)` at `n2`
alone leaves. -/
theorem Stats_invisible_to_TimeSlice (c : Calculator) (n1 n2 index : Int)
    (hwf : WellFormed c) (h1 : 0 < n1) (h2 : n1 < 2 ^ 61) :
    ∃ r c1 c2, Stats c n1 = some (r, c1) ∧ TimeSlice c1 index n2 = some c2 ∧
      TimeSlice c index n2 = some c2 := by
  obtain ⟨hlen, hlt, _⟩ := hwf
  by_cases hne : c.last = 0
  · exact ⟨_, c, _, Stats_of_closeOut c n1 c (closeOut_unset c _ hne),
      TimeSlice_unset c index n2 hne, TimeSlice_unset c index n2 hne⟩
  · have hb8 : decodeIndex c.last < 8 := decodeIndex_lt _ hlt
    have hb : decodeIndex c.last < c.entries.length := by omega
    have hco := closeOut_active_small c n1 hlen hlt hne (by omega) h2
    have hidx : decodeIndex (n1.toNat + (c.last / 2 ^ 61) * 2 ^ 61) = decodeIndex c.last := by
      rw [decodeIndex_eq, decodeIndex_eq]; omega
    have hts : decodeTimestamp (n1.toNat + (c.last / 2 ^ 61) * 2 ^ 61) = n1.toNat := by
      rw [decodeTimestamp_eq]; omega
    have hne1 : n1.toNat + (c.last / 2 ^ 61) * 2 ^ 61 ≠ 0 := by omega
    refine ⟨_, _, _, Stats_of_closeOut c n1 _ hco, ?_, TimeSlice_active c index n2 hne hb⟩
    rw [TimeSlice_active _ index n2 hne1 (by rw [hidx]; simpa using hb)]
    simp only [hidx, hts, decodeIndex_eq c.last, List.modify_modify_eq]
    refine congrArg some (congrArg₂ Calculator.mk ?_ rfl)
    refine congrArg (fun f => List.modify f _ _) ?_
    funext e
    simp only [Function.comp]
    have := addInt64_split e.Duration n1.toNat (toUint64 n2) (c.last % 2 ^ 61)
    rw [Int.toNat_of_nonneg (by omega : (0 : Int) ≤ n1)] at this
    rw [this, decodeTimestamp_eq]

/-- Witness of claim C3 on `sampleCalculator`. -/
theorem Stats_invisible_to_TimeSlice_witness :
    WellFormed sampleCalculator ∧
    ∃ r c1 c2, Stats sampleCalculator 350 = some (r, c1) ∧ TimeSlice c1 2 500 = some c2 ∧
      TimeSlice sampleCalculator 2 500 = some c2 :=
  ⟨by decide, Stats_invisible_to_TimeSlice sampleCalculator 350 500 2 (by decide) (by decide)
    (by decide)⟩

/-- Claim C4, amended: in every interleaving of the atomic steps of `Stats` calls and one
serialized sequence of at most `2^63` `TimeSlice` calls on a fresh calculator, whatever the
clock readings, the stored call count of every bucket never decreases, and no `Stats` call
returns a smaller call count for a bucket than a `Stats` call that had returned before it
started. A step changes a stored duration only if it is the `Duration` addition of a call,
and then it adds, as `int64`, that call's clock reading minus the timestamp of the state word
the call replaced. -/
theorem interleaved_callCount_monotone (indices : List Int) (readers : Nat)
    (sched1 sched2 : List (Nat × Int)) (cfgA cfgB : Config)
    (hA : (Config.init indices readers).exec sched1 = some cfgA)
    (hB : cfgA.exec sched2 = some cfgB)
    (hcalls : indices.length ≤ 2 ^ 63) :
    (∀ j, callCountAt cfgA.shared.entries j ≤ callCountAt cfgB.shared.entries j) ∧
    (∀ (a b : Nat) (ra rb : List Entry),
      cfgA.readers[a]? = some (StatsPc.returned ra) →
      cfgA.readers[b]? = some StatsPc.readClock →
      cfgB.readers[b]? = some (StatsPc.returned rb) →
      ∀ j, j < 8 → callCountAt ra j ≤ callCountAt rb j) ∧
    (∀ (tid : Nat) (now : Int) (cfg1 : Config), cfgB.step tid now = some cfg1 →
      ∀ j, durationAt cfg1.shared.entries j = durationAt cfgB.shared.entries j ∨
        ∃ n last, cfgB.addingDuration tid = some (n, last) ∧
          durationAt cfg1.shared.entries j =
            addInt64 (durationAt cfgB.shared.entries j)
              (toInt64 (subUint64 n (decodeTimestamp last)))) := by
  obtain ⟨hCA, _⟩ := config_exec_counted sched1 _ _ cfgA _ indices.length
    (config_since_init (Config.init indices readers)) (config_init_counted indices readers) hA
    hcalls
  refine ⟨?_, ?_, ?_⟩
  · exact (config_exec_counted sched2 cfgA cfgA cfgB _ _ (config_since_init cfgA) hCA hB
      hcalls).2.1
  · intro a b ra rb ha hb hrb j hj
    obtain ⟨hCB, hS⟩ := config_exec_counted sched2 cfgA cfgA cfgB b _
      (config_since_self cfgA b hb) hCA hB hcalls
    have h1 := (hCA.2.2.2.2 a _ ha).2.1 j
    have h2 := (hCB.2.2.2.2 b _ hrb).2.2 rb rfl
    have h3 := hS.2 _ hrb j (by simp only [StatsPc.records]; omega)
    simp only [StatsPc.records] at h1 h3
    exact le_trans h1 h3
  · intro tid now cfg1 hst
    exact (config_step_spec cfgB cfg1 tid now hst).2.2.1

set_option maxRecDepth 100000 in
/-- Witness of claim C4 on the interleaving `busyFirst`, `busySecond` of three `TimeSlice`
calls and two `Stats` calls: the first `Stats` call returns the call counts 0 and 1 for
buckets 0 and 1, the second one, started after the first has returned, 1 and 1, and the
stored call count of bucket 0 goes from 0 to 1. -/
theorem interleaved_callCount_monotone_witness :
    ((Config.init [1, 0, 1] 2).exec busyFirst).map
      (fun cfg => (cfg.readers.map fun pc => (pc.returnedCallCount 0, pc.returnedCallCount 1),
        cfg.readers[1]?, callCountAt cfg.shared.entries 0, callCountAt cfg.shared.entries 1)) =
        some ([(some 0, some 1), (none, none)], some StatsPc.readClock, 0, 1) ∧
    ((Config.init [1, 0, 1] 2).exec (busyFirst ++ busySecond)).map
      (fun cfg => (cfg.readers.map fun pc => (pc.returnedCallCount 0, pc.returnedCallCount 1),
        callCountAt cfg.shared.entries 0, callCountAt cfg.shared.entries 1)) =
        some ([(some 0, some 1), (some 1, some 1)], 1, 1) ∧
    ∃ cfgA cfgB,
      (Config.init [1, 0, 1] 2).exec busyFirst = some cfgA ∧
      cfgA.exec busySecond = some cfgB ∧
      (∀ j, callCountAt cfgA.shared.entries j ≤ callCountAt cfgB.shared.entries j) ∧
      (∀ (a b : Nat) (ra rb : List Entry),
        cfgA.readers[a]? = some (StatsPc.returned ra) →
        cfgA.readers[b]? = some StatsPc.readClock →
        cfgB.readers[b]? = some (StatsPc.returned rb) →
        ∀ j, j < 8 → callCountAt ra j ≤ callCountAt rb j) := by
  have h1 : ((Config.init [1, 0, 1] 2).exec busyFirst).isSome = true := by decide
  have h2 : ((Config.init [1, 0, 1] 2).exec (busyFirst ++ busySecond)).isSome = true := by
    decide
  obtain ⟨cfgA, hA⟩ := Option.isSome_iff_exists.mp h1
  obtain ⟨cfgB, hB⟩ := Option.isSome_iff_exists.mp h2
  rw [config_exec_append, hA, Option.some_bind] at hB
  have h := interleaved_callCount_monotone [1, 0, 1] 2 busyFirst busySecond cfgA cfgB hA hB
    (by decide)
  exact ⟨by decide, by decide, cfgA, cfgB, hA, hB, h.1, h.2.1⟩

set_option maxRecDepth 100000 in
/-- Counterexample to claim C4 as stated, in two interleavings whose step times are
non-decreasing. In the first, one `Stats` call returns `Duration` 0 for bucket 1 before a
second `Stats` call starts; the second call reads the clock at 20, `TimeSlice(Index1)` reads
it at 30 and swaps the state word, and the second call then replaces that word: its addition
takes the stored `Duration` of bucket 1 from 0 to -10, and it returns -10. In the second, the
writer alone makes `2^63 + 1` calls `TimeSlice(Index0)` at clock reading 1: the stored
`CallCount` of bucket 0 is `2^63 - 1` after `2^63` calls and `-2^63` after the last one. -/
theorem interleaved_duration_and_callCount_decrease :
    (List.Pairwise (fun a b => a ≤ b)
      ((staleFirstStats ++ staleRace ++ (2, 31) :: staleLoads).map Prod.snd) ∧
    ((Config.init [1] 2).exec staleFirstStats).map
      (fun cfg => (cfg.readers.map fun pc => pc.returnedDuration 1, cfg.readers[1]?)) =
        some ([some 0, none], some StatsPc.readClock) ∧
    ((Config.init [1] 2).exec (staleFirstStats ++ staleRace)).map
      (fun cfg => durationAt cfg.shared.entries 1) = some 0 ∧
    ((Config.init [1] 2).exec (staleFirstStats ++ staleRace ++ [(2, 31)])).map
      (fun cfg => durationAt cfg.shared.entries 1) = some (-10) ∧
    ((Config.init [1] 2).exec (staleFirstStats ++ staleRace ++ (2, 31) :: staleLoads)).map
      (fun cfg => cfg.readers.map fun pc => pc.returnedDuration 1) =
        some [some 0, some (-10)]) ∧
    (((Config.init (List.replicate (2 ^ 63 + 1) 0) 0).exec
        (List.replicate (2 + 4 * (2 ^ 63 - 1)) (0, 1))).map
      (fun cfg => callCountAt cfg.shared.entries 0) = some (2 ^ 63 - 1) ∧
    ((Config.init (List.replicate (2 ^ 63 + 1) 0) 0).exec
        (List.replicate (2 + 4 * 2 ^ 63) (0, 1))).map
      (fun cfg => callCountAt cfg.shared.entries 0) = some (-(2 ^ 63))) := by
  refine ⟨⟨by decide, by decide, by decide, by decide, by decide⟩, ?_, ?_⟩
  · have e : List.replicate (2 ^ 63 + 1) (0 : Int) =
        0 :: (List.replicate (2 ^ 63 - 1) 0 ++ [0]) := by
      have h63 : (2 : Nat) ^ 63 - 1 + 1 = 2 ^ 63 := by norm_num
      rw [List.replicate_succ, ← List.replicate_succ', h63]
    rw [e]
    exact (writer_alone_callCount _ _).trans (congrArg some (by unfold toInt64; omega))
  · have e : List.replicate (2 ^ 63 + 1) (0 : Int) =
        0 :: (List.replicate (2 ^ 63) 0 ++ []) := by
      rw [List.replicate_succ, List.append_nil]
    rw [e]
    exact (writer_alone_callCount _ _).trans (congrArg some (by unfold toInt64; omega))

/-- Claim C5, amended: `Stats` returns on every calculator, and when the returned durations
add up to a value in `(0, 2^63)`, so that the `int64` variable `total` holds their sum, the
returned percentages are finite and add up to 1. -/
theorem percentages_sum_to_one (c : Calculator) (now : Int) (hwf : WellFormed c) :
    ∃ r c1, Stats c now = some (r, c1) ∧
      (0 < sumDuration r → sumDuration r < 2 ^ 63 → percentageSum r = some 1) := by
  obtain ⟨c1, hco⟩ := closeOut_returns c (toUint64 now) hwf.1 hwf.2.1
  refine ⟨_, c1, Stats_of_closeOut c now c1 hco, ?_⟩
  intro h0 h1
  rw [sumDuration_snapshot] at h0 h1
  exact percentageSum_snapshot_of_range _ h0 h1

/-- Witness of claim C5 on `sampleCalculator`. -/
theorem percentages_sum_to_one_witness :
    WellFormed sampleCalculator ∧
    ∃ r c1, Stats sampleCalculator 400 = some (r, c1) ∧
      sumDuration r = 300 ∧ percentageSum r = some 1 := by
  obtain ⟨r, c1, hst, himp⟩ := percentages_sum_to_one sampleCalculator 400 (by decide)
  have hs : (Stats sampleCalculator 400).map (fun p => sumDuration p.1) = some 300 := by
    decide
  rw [hst] at hs
  have hsum : sumDuration r = 300 := Option.some.inj hs
  exact ⟨by decide, r, c1, hst, hsum, himp (by omega) (by omega)⟩

set_option maxRecDepth 100000 in
/-- Counterexample to claim C5 as stated: the calculator reached by `overflowCalls` holds
durations whose sum `5 * 2^62 - 1` is positive but wraps to `total = 2^62 - 1`, also positive;
the percentages returned by `Stats` add up to more than 5. -/
theorem percentages_sum_exceeds_one :
    run NewCalculator overflowCalls = some overflowCalculator ∧
    WellFormed overflowCalculator ∧
    ∃ r c1, Stats overflowCalculator (2 ^ 62) = some (r, c1) ∧
      0 < sumDuration r ∧ 0 < totalOf r ∧
      ∃ q, percentageSum r = some q ∧ 5 < q := by
  refine ⟨by decide, by decide, _, _,
    Stats_of_closeOut overflowCalculator (2 ^ 62) overflowAfterStats (by decide), ?_, ?_, ?_⟩
  · rw [sumDuration_snapshot]; decide
  · rw [totalOf_snapshot]; decide
  · have hs : sumDuration overflowAfterStats.entries = 5 * 2 ^ 62 - 1 := by decide
    have ht : totalOf overflowAfterStats.entries = 2 ^ 62 - 1 := by decide
    refine ⟨_, percentageSum_snapshot _ (by rw [ht]; decide), ?_⟩
    rw [hs, ht]
    norm_num

set_option maxRecDepth 100000 in
/-- Claim C6: for every clock reading, `Stats` on the calculator made by `NewCalculator`
returns eight records with `Duration` 0, `CallCount` 0 and `Percentage` the quotient `0/0`
(`NaN`), and leaves the calculator as it was: state word 0, every stored value 0. -/
theorem Stats_on_new_calculator (now : Int) :
    Stats NewCalculator now =
      some (List.replicate 8
        { Duration := 0, CallCount := 0, Percentage := F64.nan, timestamp := 0 },
        NewCalculator) ∧
    F64.divInt 0 0 = F64.nan ∧
    NewCalculator.last = 0 ∧
    ∀ j, durationAt NewCalculator.entries j = 0 ∧ callCountAt NewCalculator.entries j = 0 :=
  ⟨by rfl, by decide, by rfl, fun j => ⟨durationAt_new j, callCountAt_new j⟩⟩

/-- Claim C7, amended: two `Stats` calls at clock readings `0 < n1 ≤ n2 < 2^61` on a
calculator whose state word holds an active bucket and a timestamp `≤ n1`, and whose stored
duration for that bucket stays below `2^63` when `n2 - timestamp` is added, return the same
call counts, the same durations for the other buckets, and for the active bucket a duration
larger by exactly `n2 - n1`; no returned duration decreases. -/
theorem two_Stats_consistent (c : Calculator) (n1 n2 : Int) (hwf : WellFormed c)
    (hne : c.last ≠ 0) (hts : (decodeTimestamp c.last : Int) ≤ n1)
    (h1 : 0 < n1) (h12 : n1 ≤ n2) (h2 : n2 < 2 ^ 61)
    (hno : durationAt c.entries (decodeIndex c.last) + (n2 - decodeTimestamp c.last) < 2 ^ 63) :
    ∃ r1 c1 r2 c2, Stats c n1 = some (r1, c1) ∧ Stats c1 n2 = some (r2, c2) ∧
      (∀ j, callCountAt r2 j = callCountAt r1 j) ∧
      (∀ j, j ≠ decodeIndex c.last → durationAt r2 j = durationAt r1 j) ∧
      durationAt r2 (decodeIndex c.last) = durationAt r1 (decodeIndex c.last) + (n2 - n1) ∧
      (∀ j, durationAt r1 j ≤ durationAt r2 j) := by
  have hD := isInt64_durationAt c hwf (decodeIndex c.last)
  obtain ⟨hlen, hlt, _⟩ := hwf
  rw [decodeTimestamp_eq] at hts hno
  rw [decodeIndex_eq] at hno hD
  unfold IsInt64 at hD
  obtain ⟨r1, c1, hs1, hr1, hlen1, hlast1, hcc1, hd1, _⟩ :=
    Stats_active_result c n1 hlen hlt hne (by omega) (by omega)
  have hlt1 : c1.last < 2 ^ 64 := by rw [hlast1]; omega
  have hne1 : c1.last ≠ 0 := by rw [hlast1]; omega
  have hidx1 : c1.last / 2 ^ 61 = c.last / 2 ^ 61 := by rw [hlast1]; omega
  have hts1 : ((c1.last % 2 ^ 61 : Nat) : Int) = n1 := by rw [hlast1]; omega
  obtain ⟨r2, c2, hs2, hr2, _, _, hcc2, hd2, _⟩ :=
    Stats_active_result c1 n2 hlen1 hlt1 hne1 (by omega) h2
  rw [hidx1, hts1] at hd2
  have hb1 : durationAt c1.entries (c.last / 2 ^ 61) =
      durationAt c.entries (c.last / 2 ^ 61) + (n1 - ((c.last % 2 ^ 61 : Nat) : Int)) := by
    rw [hd1, if_pos rfl]
    exact addInt64_of_range _ _ (by unfold IsInt64; omega)
  have hb2 : durationAt c2.entries (c.last / 2 ^ 61) =
      durationAt c1.entries (c.last / 2 ^ 61) + (n2 - n1) := by
    rw [hd2, if_pos rfl]
    exact addInt64_of_range _ _ (by unfold IsInt64; omega)
  refine ⟨r1, c1, r2, c2, hs1, hs2, ?_, ?_, ?_, ?_⟩
  · intro j
    rw [hr1, hr2, callCountAt_snapshot, callCountAt_snapshot, hcc2]
  · intro j hj
    rw [decodeIndex_eq] at hj
    rw [hr1, hr2, durationAt_snapshot, durationAt_snapshot, hd2, if_neg hj]
  · rw [hr1, hr2, durationAt_snapshot, durationAt_snapshot, decodeIndex_eq, hb2]
  · intro j
    rw [hr1, hr2, durationAt_snapshot, durationAt_snapshot]
    by_cases hj : j = c.last / 2 ^ 61
    · subst hj; rw [hb2]; omega
    · rw [hd2, if_neg hj]

/-- Witness of claim C7 on `sampleCalculator`. -/
theorem two_Stats_consistent_witness :
    WellFormed sampleCalculator ∧ sampleCalculator.last ≠ 0 ∧
    (decodeTimestamp sampleCalculator.last : Int) ≤ 400 ∧
    ∃ r1 c1 r2 c2, Stats sampleCalculator 400 = some (r1, c1) ∧ Stats c1 450 = some (r2, c2) ∧
      (∀ j, callCountAt r2 j = callCountAt r1 j) ∧
      (∀ j, j ≠ decodeIndex sampleCalculator.last → durationAt r2 j = durationAt r1 j) ∧
      durationAt r2 (decodeIndex sampleCalculator.last) =
        durationAt r1 (decodeIndex sampleCalculator.last) + (450 - 400) ∧
      (∀ j, durationAt r1 j ≤ durationAt r2 j) :=
  ⟨by decide, by decide, by decide,
    two_Stats_consistent sampleCalculator 400 450 (by decide) (by decide) (by decide)
      (by decide) (by decide) (by decide) (by decide)⟩

set_option maxRecDepth 100000 in
/-- Counterexample to claim C7 as stated: on the calculator reached by `saturatingCalls`
(bucket 0 active since 1, its stored duration `2^63 - 2`), `Stats` at 1 returns the duration
`2^63 - 2` for bucket 0 and `Stats` at 3 returns `-2^63`. -/
theorem second_Stats_duration_wraps :
    run NewCalculator saturatingCalls = some saturatedCalculator ∧
    WellFormed saturatedCalculator ∧ saturatedCalculator.last ≠ 0 ∧
    decodeIndex saturatedCalculator.last = 0 ∧ decodeTimestamp saturatedCalculator.last ≤ 1 ∧
    ∃ r1 c1 r2 c2, Stats saturatedCalculator 1 = some (r1, c1) ∧ Stats c1 3 = some (r2, c2) ∧
      durationAt r1 0 = 2 ^ 63 - 2 ∧ durationAt r2 0 = -(2 ^ 63) := by
  refine ⟨by decide, by decide, by decide, by decide, by decide, _, _, _, _,
    Stats_of_closeOut saturatedCalculator 1 saturatedCalculator (by decide),
    Stats_of_closeOut saturatedCalculator 3 saturatedAfterStats (by decide), ?_, ?_⟩
  · rw [durationAt_snapshot]; decide
  · rw [durationAt_snapshot]; decide

/-- Claim C8: a `TimeSlice(index)` call at a clock reading `now < 2^61` on a calculator with
a non-zero state word adds (`int64` addition) `now - prevTimestamp` to the duration and 1 to
the call count of the bucket decoded from the previous state word, whatever `index` is,
changes no other bucket, and stores the packing of `(index, now)`. -/
theorem TimeSlice_credits_previous_bucket (c : Calculator) (index now : Int)
    (hwf : WellFormed c) (hne : c.last ≠ 0) (h0 : 0 ≤ now) (h1 : now < 2 ^ 61) :
    ∃ c1, TimeSlice c index now = some c1 ∧
      c1.last = packIndex (toUint64 now) index ∧
      (decodeTimestamp c1.last : Int) = now ∧ decodeIndex c1.last = toUint64 index % 8 ∧
      durationAt c1.entries (decodeIndex c.last) =
        addInt64 (durationAt c.entries (decodeIndex c.last))
          (now - (decodeTimestamp c.last : Int)) ∧
      callCountAt c1.entries (decodeIndex c.last) =
        addInt64 (callCountAt c.entries (decodeIndex c.last)) 1 ∧
      (∀ j, j ≠ decodeIndex c.last →
        durationAt c1.entries j = durationAt c.entries j ∧
        callCountAt c1.entries j = callCountAt c.entries j) ∧
      (IsInt64 (durationAt c.entries (decodeIndex c.last) +
          (now - (decodeTimestamp c.last : Int))) →
        durationAt c1.entries (decodeIndex c.last) =
          durationAt c.entries (decodeIndex c.last) + (now - (decodeTimestamp c.last : Int))) ∧
      (callCountAt c.entries (decodeIndex c.last) < 2 ^ 63 - 1 →
        callCountAt c1.entries (decodeIndex c.last) =
          callCountAt c.entries (decodeIndex c.last) + 1) := by
  have hC : IsInt64 (callCountAt c.entries (decodeIndex c.last)) := by
    unfold callCountAt
    rw [List.getD_eq_getElem?_getD]
    cases h : c.entries[decodeIndex c.last]? with
    | none => exact ⟨by decide, by decide⟩
    | some e => exact (hwf.2.2 e (List.getElem?_mem h)).2
  obtain ⟨hlen, hlt, _⟩ := hwf
  obtain ⟨c1, hts, _, hlast1, hcc, hd, _⟩ :=
    TimeSlice_active_result c index now hlen hlt hne h0 h1
  rw [decodeIndex_eq, decodeTimestamp_eq]
  refine ⟨c1, hts, ?_, ?_, ?_, ?_, ?_, ?_, ?_, ?_⟩
  · rw [hlast1, packIndex_eq now index h0 h1]
  · rw [hlast1, decodeTimestamp_eq]; omega
  · rw [hlast1, decodeIndex_eq]; omega
  · rw [hd, if_pos rfl]
  · rw [hcc, if_pos rfl]
  · intro j hj
    rw [hd, hcc, if_neg hj, if_neg hj]
    exact ⟨rfl, rfl⟩
  · intro hr
    rw [hd, if_pos rfl]
    exact addInt64_of_range _ _ hr
  · intro hr
    rw [hcc, if_pos rfl]
    rw [decodeIndex_eq] at hC
    unfold IsInt64 at hC
    exact addInt64_of_range _ _ (by unfold IsInt64; omega)

/-- Witness of claim C8 on `sampleCalculator`. -/
theorem TimeSlice_credits_previous_bucket_witness :
    WellFormed sampleCalculator ∧ sampleCalculator.last ≠ 0 ∧
    ∃ c1, TimeSlice sampleCalculator 2 500 = some c1 ∧
      c1.last = packIndex (toUint64 500) 2 ∧
      durationAt c1.entries 1 = 300 ∧ callCountAt c1.entries 1 = 2 ∧
      durationAt c1.entries 0 = 100 ∧ callCountAt c1.entries 0 = 1 := by
  obtain ⟨c1, h, hl, _, _, hd, hc, ho, _, _⟩ :=
    TimeSlice_credits_previous_bucket sampleCalculator 2 500 (by decide) (by decide)
      (by decide) (by decide)
  refine ⟨by decide, by decide, c1, h, hl, ?_, ?_, ?_, ?_⟩
  · rw [show (1 : Nat) = decodeIndex sampleCalculator.last by decide, hd]; decide
  · rw [show (1 : Nat) = decodeIndex sampleCalculator.last by decide, hc]; decide
  · rw [(ho 0 (by decide)).1]; decide
  · rw [(ho 0 (by decide)).2]; decide

/-- Claim C9: a `Stats` call at a clock reading `now < 2^61` on a calculator with a non-zero
state word adds (`int64` addition) `now - timestamp` to the duration of the bucket decoded
from the state word, changes no call count and no other duration, and stores the packing of
the same bucket with `now`. -/
theorem Stats_moves_start_timestamp (c : Calculator) (now : Int)
    (hwf : WellFormed c) (hne : c.last ≠ 0) (h0 : 0 ≤ now) (h1 : now < 2 ^ 61) :
    ∃ r c1, Stats c now = some (r, c1) ∧
      c1.last = packIndex (toUint64 now) (decodeIndex c.last) ∧
      (decodeTimestamp c1.last : Int) = now ∧ decodeIndex c1.last = decodeIndex c.last ∧
      durationAt c1.entries (decodeIndex c.last) =
        addInt64 (durationAt c.entries (decodeIndex c.last))
          (now - (decodeTimestamp c.last : Int)) ∧
      (∀ j, callCountAt c1.entries j = callCountAt c.entries j) ∧
      (∀ j, j ≠ decodeIndex c.last → durationAt c1.entries j = durationAt c.entries j) ∧
      (IsInt64 (durationAt c.entries (decodeIndex c.last) +
          (now - (decodeTimestamp c.last : Int))) →
        durationAt c1.entries (decodeIndex c.last) =
          durationAt c.entries (decodeIndex c.last) + (now - (decodeTimestamp c.last : Int))) ∧
      (∀ j, durationAt r j = durationAt c1.entries j ∧
        callCountAt r j = callCountAt c1.entries j) := by
  obtain ⟨hlen, hlt, _⟩ := hwf
  obtain ⟨r, c1, hst, hr, _, hlast1, hcc, hd, _⟩ :=
    Stats_active_result c now hlen hlt hne h0 h1
  have hb8 : c.last / 2 ^ 61 < 8 := by omega
  rw [decodeIndex_eq, decodeTimestamp_eq]
  refine ⟨r, c1, hst, ?_, ?_, ?_, ?_, hcc, ?_, ?_, ?_⟩
  · rw [hlast1, packIndex_eq now _ h0 h1, toUint64_natCast_small _ (by omega),
      Nat.mod_eq_of_lt hb8]
  · rw [hlast1, decodeTimestamp_eq]; omega
  · rw [hlast1, decodeIndex_eq]; omega
  · rw [hd, if_pos rfl]
  · intro j hj
    rw [hd, if_neg hj]
  · intro hr
    rw [hd, if_pos rfl]
    exact addInt64_of_range _ _ hr
  · intro j
    rw [hr, durationAt_snapshot, callCountAt_snapshot]
    exact ⟨rfl, rfl⟩

/-- Witness of claim C9 on `sampleCalculator`. -/
theorem Stats_moves_start_timestamp_witness :
    WellFormed sampleCalculator ∧ sampleCalculator.last ≠ 0 ∧
    ∃ r c1, Stats sampleCalculator 400 = some (r, c1) ∧
      c1.last = 400 + 2 ^ 61 ∧ durationAt c1.entries 1 = 200 ∧ callCountAt c1.entries 1 = 1 ∧
      durationAt c1.entries 0 = 100 := by
  obtain ⟨r, c1, h, hl, _, _, hd, hc, ho, _, _⟩ :=
    Stats_moves_start_timestamp sampleCalculator 400 (by decide) (by decide)
      (by decide) (by decide)
  refine ⟨by decide, by decide, r, c1, h, ?_, ?_, ?_, ?_⟩
  · rw [hl]; decide
  · rw [show (1 : Nat) = decodeIndex sampleCalculator.last by decide, hd]; decide
  · rw [hc]; decide
  · rw [ho 0 (by decide)]; decide

/-- Claim C10, amended: in a sequence of `TimeSlice` and `Stats` calls on a fresh calculator
with indices in `[0, 8)`, non-decreasing clock readings in `(0, 2^61)` and at most `2^63`
`TimeSlice` calls, no call decreases the stored duration or call count of any bucket, and
every stored duration and call count is non-negative after every call. -/
theorem stored_totals_monotone (pre : List Call) (x : Call) (post : List Call)
    (hv : ValidCalls (pre ++ x :: post)) (hn : countTimeSlice (pre ++ x :: post) ≤ 2 ^ 63) :
    ∃ c c1, run NewCalculator pre = some c ∧ step c x = some c1 ∧
      ∀ j, durationAt c.entries j ≤ durationAt c1.entries j ∧
        callCountAt c.entries j ≤ callCountAt c1.entries j ∧
        0 ≤ durationAt c1.entries j ∧ 0 ≤ callCountAt c1.entries j := by
  rw [append_cons_eq] at hv hn
  have hv1 := validCalls_of_append _ _ hv
  have hn1 := countTimeSlice_append_le (pre ++ [x]) post
  obtain ⟨c, hrun, hinv⟩ := run_invariant pre (validCalls_append pre x hv1).1
  obtain ⟨c1, hstep, hinv1, hdur, hcc⟩ := step_invariant pre x c hv1 hinv
  refine ⟨c, c1, hrun, hstep, fun j => ⟨hdur j, ?_, ?_, ?_⟩⟩
  · obtain ⟨n, h1, h2⟩ := hinv.2.2.1 j
    rcases hcc j with h | ⟨hp, hx, h⟩
    · rw [h]
    · have hcnt : countTimeSlice (pre ++ [x]) = countTimeSlice pre + 1 := by
        rw [countTimeSlice_append, hx]; rfl
      rw [h, h1]
      unfold addInt64 toInt64 toUint64
      omega
  · cases hft : firstTimeSlice (pre ++ [x]) with
    | none =>
      rw [hinv1.2.2.2.1 hft, durationAt_new]
    | some t0 =>
      obtain ⟨_, _, y, _, _, _, hd⟩ := hinv1.2.2.2.2 t0 hft
      exact (hd j).1
  · obtain ⟨n, h1, h2⟩ := hinv1.2.2.1 j
    rw [h1]
    unfold toInt64
    omega

/-- Witness of claim C10 on `sampleCalls`, split before its fourth call. -/
theorem stored_totals_monotone_witness :
    ValidCalls ([Call.stats 50, Call.timeSlice 0 100, Call.timeSlice 1 200] ++
      Call.stats 300 :: [Call.timeSlice 0 400]) ∧
    ∃ c c1, run NewCalculator [Call.stats 50, Call.timeSlice 0 100, Call.timeSlice 1 200] =
        some c ∧ step c (Call.stats 300) = some c1 ∧
      ∀ j, durationAt c.entries j ≤ durationAt c1.entries j ∧
        callCountAt c.entries j ≤ callCountAt c1.entries j ∧
        0 ≤ durationAt c1.entries j ∧ 0 ≤ callCountAt c1.entries j :=
  ⟨by decide,
    stored_totals_monotone [Call.stats 50, Call.timeSlice 0 100, Call.timeSlice 1 200]
      (Call.stats 300) [Call.timeSlice 0 400] (by decide) (by decide)⟩

/-- Counterexample to claim C10 as stated: in the sequence of `2^63 + 1` calls
`TimeSlice(Index0)`, all at clock reading 1, the last call takes the stored call count of
bucket 0 from `2^63 - 1` down to `-2^63`. -/
theorem callCount_wraps_after_two_pow_63_calls :
    ValidCalls (timeSliceCalls (fun _ => 0) (fun _ => 1) (2 ^ 63 - 1) ++
      [Call.timeSlice 0 1]) ∧
    ∃ c c1, run NewCalculator (timeSliceCalls (fun _ => 0) (fun _ => 1) (2 ^ 63 - 1)) = some c ∧
      step c (Call.timeSlice 0 1) = some c1 ∧
      callCountAt c.entries 0 = 2 ^ 63 - 1 ∧ callCountAt c1.entries 0 = -(2 ^ 63) := by
  have hall : ∀ k, ∀ y ∈ timeSliceCalls (fun _ => 0) (fun _ => 1) k ++ [Call.timeSlice 0 1],
      y = Call.timeSlice 0 1 := by
    intro k y hy
    unfold timeSliceCalls at hy
    simp only [List.mem_append, List.mem_map, List.mem_singleton] at hy
    rcases hy with ⟨_, _, h⟩ | h
    · exact h.symm
    · exact h
  refine ⟨⟨?_, ?_⟩, ?_⟩
  · intro y hy
    rw [hall _ y hy]
    decide
  · apply List.pairwise_of_forall_mem_list
    intro a ha b hb
    simp only [List.mem_map] at ha hb
    obtain ⟨y, hy, rfl⟩ := ha
    obtain ⟨z, hz, rfl⟩ := hb
    rw [hall _ y hy, hall _ z hz]
  · obtain ⟨c, hrun, hlen, hlast, _, hj⟩ :=
      run_timeSliceCalls (fun _ => 0) (fun _ => 1) (2 ^ 63 - 1)
        (fun _ _ => by dsimp only; omega) (by dsimp only; omega)
        (fun _ _ => by dsimp only; omega) (by dsimp only; omega)
    obtain ⟨c1, hrun1, _, _, _, hj1⟩ :=
      run_timeSliceCalls (fun _ => 0) (fun _ => 1) (2 ^ 63 - 1 + 1)
        (fun _ _ => by dsimp only; omega) (by dsimp only; omega)
        (fun _ _ => by dsimp only; omega) (by dsimp only; omega)
    rw [timeSliceCalls_succ, run_append, hrun, Option.some_bind, run_singleton] at hrun1
    refine ⟨c, c1, hrun, hrun1, ?_, ?_⟩
    · rw [(hj 0).1, sourceCount_const]
      unfold toInt64; omega
    · rw [(hj1 0).1, sourceCount_const]
      unfold toInt64; omega

/-- Claim C11: after any sequence of `TimeSlice` and `Stats` calls on a fresh calculator, with
indices in `[0, 8)` and non-decreasing clock readings in `(0, 2^61)`, a `Stats` call
returns; the total it divides by is the exact sum of the returned durations, and when that
sum is not zero every bucket `j < 8` has `0 ≤ Duration[j] ≤ total` and a finite
`Percentage` equal to the rational `Duration[j] / total`, which lies in `[0, 1]`. -/
theorem percentage_is_fraction (calls : List Call) (t : Int)
    (hv : ValidCalls (calls ++ [Call.stats t])) :
    ∃ c r c1, run NewCalculator calls = some c ∧ Stats c t = some (r, c1) ∧
      totalOf r = sumDuration r ∧
      (sumDuration r ≠ 0 → ∀ j, j < 8 →
        0 ≤ durationAt r j ∧ durationAt r j ≤ sumDuration r ∧
        ∃ q : ℚ, percentageAt r j = F64.fin q ∧
          q = (durationAt r j : ℚ) / (sumDuration r : ℚ) ∧ 0 ≤ q ∧ q ≤ 1) := by
  obtain ⟨hvpre, _, ht0, ht1, _⟩ := validCalls_append calls (Call.stats t) hv
  obtain ⟨c, hrun, hinv⟩ := run_invariant calls hvpre
  obtain ⟨c1, hstep, hinv1, _, _⟩ := step_invariant calls (Call.stats t) c hv hinv
  obtain ⟨c2, hco⟩ := closeOut_returns c (toUint64 t) hinv.1 hinv.2.1
  have hst := Stats_of_closeOut c t c2 hco
  have hc : c2 = c1 := by
    have : (Stats c t).map Prod.snd = some c1 := hstep
    rw [hst] at this
    exact Option.some.inj this
  subst hc
  obtain ⟨hlen1, _, _, hnone, hsome⟩ := hinv1
  have hfacts : IsInt64 (sumDuration c2.entries) ∧
      (sumDuration c2.entries ≠ 0 →
        ∀ j, 0 ≤ durationAt c2.entries j ∧ durationAt c2.entries j ≤ sumDuration c2.entries) := by
    cases hft : firstTimeSlice (calls ++ [Call.stats t]) with
    | none =>
      rw [hnone hft, sumDuration_new]
      exact ⟨⟨by decide, by decide⟩, fun h => absurd rfl h⟩
    | some t0 =>
      obtain ⟨hpos, _, x, hx, _, hsum, hd⟩ := hsome t0 hft
      rw [getLast?_append_singleton] at hx
      have hxe : x = Call.stats t := (Option.some.inj hx).symm
      subst hxe
      simp only [Call.clock] at hsum hd ht0 ht1
      have h0 := (hd 0).1
      have h00 := (hd 0).2
      refine ⟨?_, fun _ j => ?_⟩
      · rw [hsum]; unfold IsInt64; omega
      · rw [hsum]; exact hd j
  have htot : totalOf (snapshot c2.entries) = sumDuration (snapshot c2.entries) := by
    rw [totalOf_snapshot, sumDuration_snapshot, totalOf_of_range _ hfacts.1]
  refine ⟨c, snapshot c2.entries, c2, hrun, hst, htot, ?_⟩
  intro hne j hj
  rw [sumDuration_snapshot] at hne ⊢
  rw [durationAt_snapshot]
  obtain ⟨hd0, hd1⟩ := hfacts.2 hne j
  have hsumpos : 0 < sumDuration c2.entries := by
    have := hfacts.2 hne 0
    omega
  refine ⟨hd0, hd1, _, ?_, rfl, ?_, ?_⟩
  · rw [percentageAt_snapshot _ _ (by rw [hlen1]; exact hj), totalOf_of_range _ hfacts.1]
    unfold F64.divInt
    rw [if_neg hne]
  · exact div_nonneg (by exact_mod_cast hd0) (by exact_mod_cast hsumpos.le)
  · exact div_le_one_of_le₀ (by exact_mod_cast hd1) (by exact_mod_cast hsumpos.le)

/-- Witness of claim C11 on `sampleCalls` followed by a `Stats` call at clock reading 500. -/
theorem percentage_is_fraction_witness :
    ValidCalls (sampleCalls ++ [Call.stats 500]) ∧
    ∃ c r c1, run NewCalculator sampleCalls = some c ∧ Stats c 500 = some (r, c1) ∧
      totalOf r = sumDuration r ∧
      (sumDuration r ≠ 0 → ∀ j, j < 8 →
        0 ≤ durationAt r j ∧ durationAt r j ≤ sumDuration r ∧
        ∃ q : ℚ, percentageAt r j = F64.fin q ∧
          q = (durationAt r j : ℚ) / (sumDuration r : ℚ) ∧ 0 ≤ q ∧ q ≤ 1) :=
  ⟨by decide, percentage_is_fraction sampleCalls 500 (by decide)⟩

/-- Claim C12: on every calculator (8 entries, a 64-bit state word, `int64` counters) and
for every clock reading, `Stats` returns exactly `IndexCount` = 8 records, and for every
`i < 8` record `i` carries the `Duration` and the `CallCount` stored for bucket `i` in the
calculator left by the close-out of the in-flight interval (`closeOut`). -/
theorem Stats_returns_records_in_order (c : Calculator) (now : Int) (hwf : WellFormed c) :
    ∃ r c1, Stats c now = some (r, c1) ∧ closeOut c (toUint64 now) = some c1 ∧
      (r.length : Int) = IndexCount ∧ r.length = 8 ∧
      ∀ i, i < 8 → ∃ e s, r[i]? = some e ∧ c1.entries[i]? = some s ∧
        e.Duration = s.Duration ∧ e.CallCount = s.CallCount := by
  obtain ⟨c1, hco, hwf1⟩ := closeOut_wellFormed c now hwf
  have hlen : (snapshot c1.entries).length = 8 := by rw [length_snapshot, hwf1.1]
  refine ⟨_, c1, Stats_of_closeOut c now c1 hco, hco, by rw [hlen]; rfl, hlen, ?_⟩
  intro i hi
  have hi1 : i < c1.entries.length := by rw [hwf1.1]; exact hi
  refine ⟨Entry.mk c1.entries[i].Duration c1.entries[i].CallCount
      (F64.divInt c1.entries[i].Duration (totalOf c1.entries)) 0,
    c1.entries[i], ?_, List.getElem?_eq_getElem hi1, rfl, rfl⟩
  rw [getElem?_snapshot, List.getElem?_eq_getElem hi1]
  rfl

/-- Witness of claim C12 on `sampleCalculator`. -/
theorem Stats_returns_records_in_order_witness :
    WellFormed sampleCalculator ∧
    ∃ r c1, Stats sampleCalculator 400 = some (r, c1) ∧
      closeOut sampleCalculator (toUint64 400) = some c1 ∧
      (r.length : Int) = IndexCount ∧ r.length = 8 ∧
      ∀ i, i < 8 → ∃ e s, r[i]? = some e ∧ c1.entries[i]? = some s ∧
        e.Duration = s.Duration ∧ e.CallCount = s.CallCount :=
  ⟨by decide, Stats_returns_records_in_order sampleCalculator 400 (by decide)⟩

/-- Claim C13, amended: every nanosecond count up to 73 years
(`73 * 365 * 24 * 3600 * 10^9`) is less than `2^61`, and for every index in `[0, 8)` it is
packed into the state word and decoded again unchanged, next to the index. -/
theorem timestamp_fits_seventy_three_years (n : Nat) (index : Int)
    (hn : n ≤ seventyThreeYearsNanoseconds) (h0 : 0 ≤ index) (h1 : index < 8) :
    n < 2 ^ 61 ∧ decodeTimestamp (packIndex n index) = n ∧
      decodeIndex (packIndex n index) = index.toNat := by
  have h73 : seventyThreeYearsNanoseconds < 2 ^ 61 := by decide
  have hlt : n < 2 ^ 61 := by omega
  rw [packIndex_small n index hlt, toUint64_index index h0 h1, decodeTimestamp_eq,
    decodeIndex_eq]
  omega

/-- Witness of claim C13 on the nanosecond count `1.7 * 10^18` and index 3. -/
theorem timestamp_fits_seventy_three_years_witness :
    (1700000000000000000 : Nat) ≤ seventyThreeYearsNanoseconds ∧
    (1700000000000000000 : Nat) < 2 ^ 61 ∧
    decodeTimestamp (packIndex 1700000000000000000 3) = 1700000000000000000 ∧
    decodeIndex (packIndex 1700000000000000000 3) = (3 : Int).toNat :=
  ⟨by decide, timestamp_fits_seventy_three_years 1700000000000000000 3 (by decide)
    (by decide) (by decide)⟩

/-- Counterexample to claim C13 as stated: one century of nanoseconds,
`100 * 365 * 24 * 3600 * 10^9`, is not less than `2^61`; packed with index 0 it decodes to
another timestamp and to bucket 1. -/
theorem century_exceeds_timestamp_bits :
    centuryNanoseconds = 100 * 365 * 24 * 3600 * 10 ^ 9 ∧
    ¬ centuryNanoseconds < 2 ^ 61 ∧
    decodeTimestamp (packIndex centuryNanoseconds 0) ≠ centuryNanoseconds ∧
    decodeIndex (packIndex centuryNanoseconds 0) = 1 := by
  refine ⟨rfl, by decide, ?_, ?_⟩
  · rw [packIndex_zero, decodeTimestamp_eq]; decide
  · rw [packIndex_zero, decodeIndex_eq]; decide

/-- Claim C14: for every index in `[0, 8)` and every timestamp `n < 2^61` the packed word
decodes to the index and to `n`, both as `TimeSlice` packs it (`packIndex`) and as `Stats`
packs it; the expression of `Stats`, `n - last &^ (7 << 61)` (`statsElapsed`), is `n` minus
the decoded timestamp of `last`, as an `int64` exactly `n - decodeTimestamp last`, and it is
what the close-out of `Stats` adds to the duration of the decoded bucket. -/
theorem pack_decode_round_trip (n : Nat) (index : Int) (last : Nat)
    (hn : n < 2 ^ 61) (h0 : 0 ≤ index) (h1 : index < 8) (hlast : last < 2 ^ 64) :
    decodeIndex (packIndex n index) = index.toNat ∧
    decodeTimestamp (packIndex n index) = n ∧
    decodeIndex (n ||| shlUint64 index.toNat 61) = index.toNat ∧
    decodeTimestamp (n ||| shlUint64 index.toNat 61) = n ∧
    statsElapsed n last = subUint64 n (decodeTimestamp last) ∧
    toInt64 (statsElapsed n last) = (n : Int) - (decodeTimestamp last : Int) ∧
    ∀ c : Calculator, c.last = last → last ≠ 0 → c.entries.length = 8 →
      ∃ c1, closeOut c n = some c1 ∧
        durationAt c1.entries (decodeIndex last) =
          addInt64 (durationAt c.entries (decodeIndex last)) (toInt64 (statsElapsed n last)) := by
  have hts : decodeTimestamp last < 2 ^ 61 := by rw [decodeTimestamp_eq]; omega
  have hi : index.toNat % 8 = index.toNat := by omega
  refine ⟨?_, ?_, ?_, ?_, rfl, ?_, ?_⟩
  · rw [packIndex_small n index hn, toUint64_index index h0 h1, decodeIndex_eq]; omega
  · rw [packIndex_small n index hn, toUint64_index index h0 h1, decodeTimestamp_eq]; omega
  · rw [or_shlUint64 n _ hn, hi, decodeIndex_eq]; omega
  · rw [or_shlUint64 n _ hn, hi, decodeTimestamp_eq]; omega
  · show toInt64 (subUint64 n (decodeTimestamp last)) = _
    exact toInt64_subUint64 _ _ (by omega) (by omega)
  · intro c hc hne hlen
    subst hc
    have hb : decodeIndex c.last < c.entries.length := by
      have := decodeIndex_lt _ hlast; omega
    refine ⟨_, closeOut_active c n hne hb, ?_⟩
    show durationAt (c.entries.modify _ _) _ = _
    rw [durationAt_modify_add c.entries _ (decodeIndex c.last) (decodeIndex c.last)
      (toInt64 (subUint64 n (decodeTimestamp c.last))) hb (fun _ => rfl), if_pos rfl]
    rfl

/-- Witness of claim C14 on timestamp 400, index 1 and the state word of
`sampleCalculator`. -/
theorem pack_decode_round_trip_witness :
    decodeIndex (packIndex 400 1) = (1 : Int).toNat ∧
    decodeTimestamp (packIndex 400 1) = 400 ∧
    statsElapsed 400 sampleCalculator.last = subUint64 400 (decodeTimestamp sampleCalculator.last) ∧
    toInt64 (statsElapsed 400 sampleCalculator.last) = 100 := by
  obtain ⟨h1, h2, _, _, h5, h6, _⟩ :=
    pack_decode_round_trip 400 1 sampleCalculator.last (by decide) (by decide) (by decide)
      (by decide)
  refine ⟨h1, h2, h5, ?_⟩
  rw [h6]; decide

/-- Claim C15: in every sequence of `TimeSlice` and `Stats` calls on a fresh calculator, with
indices in `[0, 8)` and clock readings in `(0, 2^61)` (in any order), every call returns,
and both before and after each call the state word is 0 exactly when no `TimeSlice` call
has been made. Hence a `TimeSlice` call leaves all entries as they are when it is the first
one, and otherwise adds one to the call count of the bucket decoded from the state word,
which changes that call count. -/
theorem zero_word_iff_no_TimeSlice (pre : List Call) (x : Call)
    (hr : RangeCalls (pre ++ [x])) :
    ∃ c c1, run NewCalculator pre = some c ∧ step c x = some c1 ∧
      (c.last = 0 ↔ countTimeSlice pre = 0) ∧
      (c1.last = 0 ↔ countTimeSlice (pre ++ [x]) = 0) ∧
      (x.isTimeSlice = true →
        (countTimeSlice pre = 0 → c1.entries = c.entries) ∧
        (countTimeSlice pre ≠ 0 →
          callCountAt c1.entries (decodeIndex c.last) =
            addInt64 (callCountAt c.entries (decodeIndex c.last)) 1 ∧
          callCountAt c1.entries (decodeIndex c.last) ≠
            callCountAt c.entries (decodeIndex c.last))) := by
  obtain ⟨hpre, hok, h0, h1⟩ := rangeCalls_append pre x hr
  obtain ⟨c, hrun, hinv⟩ := run_wordInvariant pre hpre
  obtain ⟨c1, hstep, hinv1, hts⟩ := step_wordInvariant pre x c hok h0 h1 hinv
  exact ⟨c, c1, hrun, hstep, hinv.2.2.2, hinv1.2.2.2, hts⟩

/-- Witness of claim C15 on `Stats`, `TimeSlice(Index0)` followed by `TimeSlice(Index1)` at an
earlier clock reading. -/
theorem zero_word_iff_no_TimeSlice_witness :
    RangeCalls ([Call.stats 50, Call.timeSlice 0 100] ++ [Call.timeSlice 1 70]) ∧
    ∃ c c1, run NewCalculator [Call.stats 50, Call.timeSlice 0 100] = some c ∧
      step c (Call.timeSlice 1 70) = some c1 ∧
      (c.last = 0 ↔ countTimeSlice [Call.stats 50, Call.timeSlice 0 100] = 0) ∧
      (c1.last = 0 ↔
        countTimeSlice ([Call.stats 50, Call.timeSlice 0 100] ++ [Call.timeSlice 1 70]) = 0) ∧
      ((Call.timeSlice 1 70).isTimeSlice = true →
        (countTimeSlice [Call.stats 50, Call.timeSlice 0 100] = 0 → c1.entries = c.entries) ∧
        (countTimeSlice [Call.stats 50, Call.timeSlice 0 100] ≠ 0 →
          callCountAt c1.entries (decodeIndex c.last) =
            addInt64 (callCountAt c.entries (decodeIndex c.last)) 1 ∧
          callCountAt c1.entries (decodeIndex c.last) ≠
            callCountAt c.entries (decodeIndex c.last))) :=
  ⟨by decide,
    zero_word_iff_no_TimeSlice [Call.stats 50, Call.timeSlice 0 100] (Call.timeSlice 1 70)
      (by decide)⟩

/-- Claim C16: on every calculator, for every index `i` (any integer, negative or not below
`IndexCount`) and every clock reading `0 ≤ n < 2^61`, `TimeSlice(i)` returns and leaves the
same calculator as `TimeSlice(i mod 8)`, with `i mod 8` the residue in `[0, 8)`; its state
word decodes to bucket `i mod 8` and timestamp `n`, so `IndexCount` is recorded as bucket 0.
For every 64-bit state word the decoded bucket index is below 8, the number of entries, so
`TimeSlice` and `Stats` return (no access is out of bounds) for every index and every clock
reading. -/
theorem out_of_range_index_aliased (c : Calculator) (i n : Int)
    (hwf : WellFormed c) (hn0 : 0 ≤ n) (hn : n < 2 ^ 61) :
    (∃ c1, TimeSlice c i n = some c1 ∧ TimeSlice c (i % 8) n = some c1 ∧
      WellFormed c1 ∧ c1.last = packIndex (toUint64 n) (i % 8) ∧
      decodeIndex c1.last = (i % 8).toNat ∧ decodeTimestamp c1.last = n.toNat) ∧
    (0 ≤ i % 8 ∧ i % 8 < 8) ∧
    TimeSlice c IndexCount n = TimeSlice c 0 n ∧
    decodeIndex (packIndex (toUint64 n) IndexCount) = 0 ∧
    (∀ w, w < 2 ^ 64 → decodeIndex w < 8) ∧
    decodeIndex c.last < c.entries.length ∧
    (∀ index now, ∃ c1, TimeSlice c index now = some c1 ∧ WellFormed c1) ∧
    (∀ now, ∃ r c1, Stats c now = some (r, c1) ∧ WellFormed c1) := by
  have hmod : 0 ≤ i % 8 ∧ i % 8 < 8 := by omega
  have hal : ∀ j : Int, TimeSlice c j n = TimeSlice c (j % 8) n := by
    intro j
    obtain ⟨c1, h1, _, _⟩ := TimeSlice_wellFormed c j n hwf
    by_cases h : c.last = 0
    · rw [TimeSlice_unset c j n h, TimeSlice_unset c (j % 8) n h, ← packIndex_emod]
    · have hb : decodeIndex c.last < c.entries.length := by
        have := decodeIndex_lt _ hwf.2.1
        have := hwf.1
        omega
      rw [TimeSlice_active c j n h hb, TimeSlice_active c (j % 8) n h hb, ← packIndex_emod]
  obtain ⟨c1, h1, hwf1, hlast⟩ := TimeSlice_wellFormed c (i % 8) n hwf
  have hpk := packIndex_eq n (i % 8) hn0 hn
  rw [toUint64_index (i % 8) hmod.1 hmod.2] at hpk
  refine ⟨⟨c1, by rw [hal i]; exact h1, h1, hwf1, hlast, ?_, ?_⟩, hmod, ?_, ?_,
    fun w hw => decodeIndex_lt w hw, ?_, ?_, ?_⟩
  · rw [hlast, hpk, decodeIndex_eq]; omega
  · rw [hlast, hpk, decodeTimestamp_eq]; omega
  · rw [hal IndexCount]; rfl
  · rw [packIndex_emod, show IndexCount % 8 = 0 from rfl, packIndex_zero, decodeIndex_eq,
      toUint64_of_range n hn0 (by omega)]
    omega
  · have := decodeIndex_lt _ hwf.2.1
    have := hwf.1
    omega
  · intro index now
    obtain ⟨c2, h2, hwf2, _⟩ := TimeSlice_wellFormed c index now hwf
    exact ⟨c2, h2, hwf2⟩
  · intro now
    obtain ⟨c2, h2, hwf2⟩ := closeOut_wellFormed c now hwf
    exact ⟨_, c2, Stats_of_closeOut c now c2 h2, hwf2⟩

/-- Witness of claim C16 on `sampleCalculator`, index `-3` and clock reading 400. -/
theorem out_of_range_index_aliased_witness :
    WellFormed sampleCalculator ∧
    (∃ c1, TimeSlice sampleCalculator (-3) 400 = some c1 ∧
      TimeSlice sampleCalculator ((-3) % 8) 400 = some c1 ∧
      WellFormed c1 ∧ c1.last = packIndex (toUint64 400) ((-3) % 8) ∧
      decodeIndex c1.last = ((-3 : Int) % 8).toNat ∧ decodeTimestamp c1.last = (400 : Int).toNat) ∧
    TimeSlice sampleCalculator IndexCount 400 = TimeSlice sampleCalculator 0 400 ∧
    decodeIndex (packIndex (toUint64 400) IndexCount) = 0 := by
  obtain ⟨h1, _, h3, h4, _⟩ :=
    out_of_range_index_aliased sampleCalculator (-3) 400 (by decide) (by decide) (by decide)
  exact ⟨by decide, h1, h3, h4⟩

/-- Claim C17: for every clock reading `2^61 ≤ n < 2^62`, on every calculator,
`TimeSlice(Index0)` stores a state word that decodes to bucket 1, not 0, and to the
timestamp `n - 2^61`, not `n`; the next `TimeSlice` call, at a clock reading
`n ≤ n2 < 2^62`, adds `n2 - n + 2^61`, which is not the elapsed time `n2 - n`, to the
duration of bucket 1 and one to its call count, and leaves bucket 0 as it is. -/
theorem clock_beyond_61_bits_misattributed (c : Calculator) (n n2 index2 : Int)
    (hwf : WellFormed c) (h1 : 2 ^ 61 ≤ n) (h2 : n ≤ n2) (h3 : n2 < 2 ^ 62) :
    ∃ c1 c2, TimeSlice c 0 n = some c1 ∧
      c1.last = n.toNat ∧
      decodeIndex c1.last = 1 ∧ decodeIndex c1.last ≠ 0 ∧
      (decodeTimestamp c1.last : Int) = n - 2 ^ 61 ∧ (decodeTimestamp c1.last : Int) ≠ n ∧
      TimeSlice c1 index2 n2 = some c2 ∧
      durationAt c2.entries 1 = addInt64 (durationAt c1.entries 1) (n2 - n + 2 ^ 61) ∧
      n2 - n + 2 ^ 61 ≠ n2 - n ∧
      callCountAt c2.entries 1 = addInt64 (callCountAt c1.entries 1) 1 ∧
      durationAt c2.entries 0 = durationAt c1.entries 0 ∧
      callCountAt c2.entries 0 = callCountAt c1.entries 0 := by
  obtain ⟨c1, hc1, hwf1, hlast⟩ := TimeSlice_wellFormed c 0 n hwf
  rw [packIndex_zero, toUint64_of_range n (by omega) (by omega)] at hlast
  have hne : c1.last ≠ 0 := by rw [hlast]; omega
  have hdi : decodeIndex c1.last = 1 := by rw [hlast, decodeIndex_eq]; omega
  have hdt : (decodeTimestamp c1.last : Int) = n - 2 ^ 61 := by
    rw [hlast, decodeTimestamp_eq]; omega
  have hb : decodeIndex c1.last < c1.entries.length := by rw [hdi, hwf1.1]; omega
  have hel : toInt64 (subUint64 (toUint64 n2) (decodeTimestamp c1.last)) = n2 - n + 2 ^ 61 := by
    rw [toUint64_of_range n2 (by omega) (by omega),
      toInt64_subUint64 _ _ (by omega) (by omega), hdt]
    omega
  have hact := TimeSlice_active c1 index2 n2 hne hb
  rw [hel, hdi] at hact
  have hb1 : 1 < c1.entries.length := by rw [hwf1.1]; omega
  refine ⟨c1, _, hc1, hlast, hdi, by rw [hdi]; omega, hdt, by rw [hdt]; omega, hact,
    ?_, by omega, ?_, ?_, ?_⟩
  · show durationAt (c1.entries.modify _ _) _ = _
    rw [durationAt_modify_add c1.entries _ 1 1 (n2 - n + 2 ^ 61) hb1 (fun _ => rfl), if_pos rfl]
  · show callCountAt (c1.entries.modify _ _) _ = _
    rw [callCountAt_modify_succ c1.entries _ 1 1 hb1 (fun _ => rfl), if_pos rfl]
  · show durationAt (c1.entries.modify _ _) _ = _
    rw [durationAt_modify c1.entries _ 1 0 hb1, if_neg (by omega)]
  · show callCountAt (c1.entries.modify _ _) _ = _
    rw [callCountAt_modify c1.entries _ 1 0 hb1, if_neg (by omega)]

/-- Witness of claim C17 on a fresh calculator with clock readings `2^61` and `2^61 + 5`. -/
theorem clock_beyond_61_bits_misattributed_witness :
    WellFormed NewCalculator ∧ (2 : Int) ^ 61 ≤ 2 ^ 61 ∧ (2 : Int) ^ 61 ≤ 2 ^ 61 + 5 ∧
    (2 : Int) ^ 61 + 5 < 2 ^ 62 ∧
    ∃ c1 c2, TimeSlice NewCalculator 0 (2 ^ 61) = some c1 ∧
      decodeIndex c1.last = 1 ∧
      (decodeTimestamp c1.last : Int) = 2 ^ 61 - 2 ^ 61 ∧
      TimeSlice c1 0 (2 ^ 61 + 5) = some c2 ∧
      durationAt c2.entries 1 =
        addInt64 (durationAt c1.entries 1) (2 ^ 61 + 5 - 2 ^ 61 + 2 ^ 61) ∧
      durationAt c2.entries 0 = durationAt c1.entries 0 := by
  obtain ⟨c1, c2, h1, _, h3, _, h5, _, h7, h8, _, _, h11, _⟩ :=
    clock_beyond_61_bits_misattributed NewCalculator (2 ^ 61) (2 ^ 61 + 5) 0 (by decide)
      (by decide) (by decide) (by decide)
  exact ⟨by decide, by decide, by decide, by decide, c1, c2, h1, h3, h5, h7, h8, h11⟩

end Bottleneck

